import Mathlib

/-!
# A verification model of the LERC raster codec and its platform wrappers

The repository ships thin platform wrappers (C shims and JNI bridges) around a
LERC (Limited Error Raster Compression) codec.  The wrapper logic that is
present in the sources is embedded directly below (`exWrapper…`, `ios…`
definitions).  The codec itself is not part of the supplied sources — only its
declarations (`Lerc_c_api_impl.h`) and callers are — so, following the written
specification, the codec core (bit streams, varints, quantizer, mask codec,
tile encoder/decoder, blob header, top level encode/decode/getInfo) is
modelled from the specification text.  Every such definition carries a
`Modelled from the spec:` doc comment naming what is missing from the sources.

Numeric samples are modelled as exact rationals: the specification reasons
about values, tolerances and reconstruction error bounds with exact
arithmetic (`offset + code * scale` within `tolerance`), which rationals
capture faithfully; byte blobs are lists of naturals below 256.
-/

deriving instance DecidableEq for Except

namespace LercModel

/-- Error taxonomy of the codec, as listed in the specification. -/
inductive LercError where
  | malformedHeader
  | truncatedStream
  | corruptMask
  | unsupportedTileMarker
  | lossyRequired
  | typeRange
  deriving DecidableEq, Repr

/-! ## Variable-width integers (LEB128)

Modelled from the spec: the `BitStreamCodec` component is absent from the
sources; varints use the specified LEB128 style 7-bits-per-byte encoding with
the continuation bit in the high bit.  The encoder is written with explicit
fuel so that it is structurally recursive (the fuel is always sufficient when
it equals the number being encoded). -/

/-- LEB128 encoding worker: emits 7 payload bits per byte, high bit set on all
but the last byte.  `fuel` bounds the recursion depth; `fuel = n` suffices. -/
def varintEncodeAux : Nat → Nat → List Nat
  | 0, n => [n % 128]
  | fuel + 1, n =>
    if n < 128 then [n] else (n % 128 + 128) :: varintEncodeAux fuel (n / 128)

/-- Modelled from the spec: LEB128 varint encoding of a natural number. -/
def varintEncode (n : Nat) : List Nat :=
  varintEncodeAux n n

/-- Modelled from the spec: LEB128 varint decoding.  Returns the decoded value
and the unconsumed tail, or `none` when the stream ends inside the varint. -/
def varintDecode : List Nat → Option (Nat × List Nat)
  | [] => none
  | byte :: rest =>
    if byte < 128 then some (byte, rest)
    else
      match varintDecode rest with
      | none => none
      | some (m, rest1) => some (byte - 128 + 128 * m, rest1)

/-- Decode varints until the byte list is exhausted; `fuel` bounds the number
of varints read (the byte count always suffices since each varint consumes at
least one byte). -/
def varintDecodeList : Nat → List Nat → Option (List Nat)
  | _, [] => some []
  | 0, _ :: _ => none
  | fuel + 1, bytes =>
    match varintDecode bytes with
    | none => none
    | some (n, rest) =>
      match varintDecodeList fuel rest with
      | none => none
      | some ns => some (n :: ns)

/-! ## Rational value serialization

Modelled from the spec: numeric header and tile fields (min/max, offsets,
scales, the noData value) are serialized as sign-folded numerator and
denominator varints; the spec fixes only that multi-byte fields live in the
byte stream, not their precise field encoding. -/

/-- Fold an integer into a natural (zigzag style), so it can ride a varint. -/
def zigzag (i : Int) : Nat :=
  if 0 ≤ i then 2 * i.toNat else 2 * (-i).toNat - 1

/-- Unfold a zigzag natural back into an integer. -/
def unzigzag (n : Nat) : Int :=
  if n % 2 = 0 then (n / 2 : Nat) else -((n / 2 : Nat) + 1)

/-- Serialize a rational as zigzag numerator then denominator varints. -/
def ratEncode (q : ℚ) : List Nat :=
  varintEncode (zigzag q.num) ++ varintEncode q.den

/-- Parse a rational written by `ratEncode`, returning the unconsumed tail. -/
def ratDecode (bytes : List Nat) : Option (ℚ × List Nat) :=
  match varintDecode bytes with
  | none => none
  | some (z, r1) =>
    match varintDecode r1 with
    | none => none
    | some (d, r2) => some (mkRat (unzigzag z) d, r2)

/-! ## Validity mask run-length codec

Modelled from the spec: the `MaskCodec` component is absent from the sources.
It run-length encodes alternating runs of valid/invalid pixels in row-major
order, each run length a varint; the first run counts leading valid pixels
(and is 0 when the mask starts invalid). -/

/-- Alternating run lengths of a boolean list: `runsAux b n xs` has already
seen `n` copies of `b`.  The first resulting run may be 0; all later runs are
positive. -/
def runsAux : Bool → Nat → List Bool → List Nat
  | _, n, [] => [n]
  | b, n, x :: xs => if x = b then runsAux b (n + 1) xs else n :: runsAux x 1 xs

/-- The run lengths of a mask, starting with the count of leading `true`s. -/
def maskRuns (mask : List Bool) : List Nat :=
  runsAux true 0 mask

/-- Modelled from the spec: `MaskCodec.encode` — the alternating run lengths,
each emitted as a varint. -/
def maskEncode (mask : List Bool) : List Nat :=
  (maskRuns mask).flatMap varintEncode

/-- Expand alternating run lengths back into a boolean list, the first run
carrying `b`. -/
def expandRuns : Bool → List Nat → List Bool
  | _, [] => []
  | b, r :: rs => List.replicate r b ++ expandRuns (!b) rs

/-- Modelled from the spec: `MaskCodec.decode bytes width height`.  All
varints in `bytes` are read; decoding fails with `CorruptMaskError` exactly
when the decoded run lengths do not sum to `width * height`. -/
def maskDecode (bytes : List Nat) (width height : Nat) :
    Except LercError (List Bool) :=
  match varintDecodeList bytes.length bytes with
  | none => .error .truncatedStream
  | some rs =>
    if rs.sum = width * height then .ok (expandRuns true rs)
    else .error .corruptMask

/-- In-blob mask reader loop: reads runs until the accumulated pixel count
reaches `target`, failing with `CorruptMaskError` on overshoot.  `fuel`
bounds the number of runs read (the remaining byte count suffices). -/
def readRunsLoop : Nat → Nat → Nat → List Nat → Except LercError (List Nat × List Nat)
  | 0, target, acc, bytes =>
    if acc = target then .ok ([], bytes) else .error .truncatedStream
  | fuel + 1, target, acc, bytes =>
    if acc = target then .ok ([], bytes)
    else
      match varintDecode bytes with
      | none => .error .truncatedStream
      | some (r, rest) =>
        if target < acc + r then .error .corruptMask
        else
          match readRunsLoop fuel target (acc + r) rest with
          | .ok (rs, rest1) => .ok (r :: rs, rest1)
          | .error e => .error e

/-- Modelled from the spec: the decoder-side mask reader embedded in a blob.
It always reads the first run, then further runs until `target` pixels are
covered, and returns the expanded mask together with the unconsumed tail. -/
def maskDecodeStream (target : Nat) (bytes : List Nat) :
    Except LercError (List Bool × List Nat) :=
  match varintDecode bytes with
  | none => .error .truncatedStream
  | some (r0, rest) =>
    if target < r0 then .error .corruptMask
    else
      match readRunsLoop rest.length target r0 rest with
      | .ok (rs, rest1) => .ok (expandRuns true (r0 :: rs), rest1)
      | .error e => .error e

/-! ## Quantizer

Modelled from the spec: the `Quantizer` component is absent from the sources.
`quantize` maps sample values to integer codes within the caller-supplied
tolerance; `offset = min(values)`, `scale = max(2 * tolerance, epsilon)`,
`code_i = round((value_i - offset) / scale)`.  With exact rational arithmetic
the positive machine-epsilon floor degenerates: the spec leaves the value of
`epsilon` open, and the zero-tolerance case is served by the separate lossless
branch, so `epsilon` is 0 here and `scale = 2 * tolerance` whenever the
tolerance is positive. -/

/-- Modelled from the spec: the scale floor of the quantizer (see above). -/
def epsilon : ℚ := 0

/-- Minimum of `v :: vs`. -/
def listMin (v : ℚ) (vs : List ℚ) : ℚ := vs.foldl min v

/-- Maximum of `v :: vs`. -/
def listMax (v : ℚ) (vs : List ℚ) : ℚ := vs.foldl max v

/-- Modelled from the spec: the quantizer.  For tolerance 0 it falls back to
the lossless integer round-trip (`scale = 1`, codes are the exact integer
offsets), failing with `LossyRequiredError` on non-integral inputs; for
positive tolerance it rounds `(value - offset) / scale`. -/
def quantize (vals : List ℚ) (t : ℚ) : Except LercError (List Int × ℚ × ℚ) :=
  let offset := match vals with | [] => 0 | v :: vs => listMin v vs
  if t = 0 then
    if vals.all (fun v => v.den = 1) then
      .ok (vals.map (fun v => (v - offset).num), 1, offset)
    else .error .lossyRequired
  else
    let scale := max (2 * t) epsilon
    .ok (vals.map (fun v => round ((v - offset) / scale)), scale, offset)

/-! ## Bit packing

Modelled from the spec: tile codes are packed using the minimum number of
bits needed for the largest code (`ceil(log2(maxCode + 1))`, minimum 1), and
the payload occupies `ceil(validCount * bitWidth / 8)` bytes.  Bits are
stored least-significant first within each value and each byte. -/

/-- The low `w` bits of `n`, least significant first. -/
def natToBitsLSB : Nat → Nat → List Bool
  | 0, _ => []
  | w + 1, n => decide (n % 2 = 1) :: natToBitsLSB w (n / 2)

/-- Reassemble a little-endian bit list into a natural. -/
def bitsToNatLSB : List Bool → Nat
  | [] => 0
  | b :: bs => (if b then 1 else 0) + 2 * bitsToNatLSB bs

/-- Group bits into bytes of 8, padding the final byte with 0 bits.  `fuel`
bounds the recursion; the bit count suffices. -/
def bitsToBytesAux : Nat → List Bool → List Nat
  | _, [] => []
  | 0, _ :: _ => []
  | fuel + 1, bits => bitsToNatLSB (bits.take 8) :: bitsToBytesAux fuel (bits.drop 8)

/-- Group bits into bytes of 8, padding the final byte with 0 bits. -/
def bitsToBytes (bits : List Bool) : List Nat :=
  bitsToBytesAux bits.length bits

/-- The bit stream carried by a byte list, 8 bits per byte. -/
def bytesToBits (bytes : List Nat) : List Bool :=
  bytes.flatMap (natToBitsLSB 8)

/-- Pack fixed-width codes into a byte-aligned payload. -/
def packCodes (w : Nat) (codes : List Nat) : List Nat :=
  bitsToBytes (codes.flatMap (natToBitsLSB w))

/-- Read `count` codes of `w` bits each from a bit stream. -/
def unpackCodes (w : Nat) : Nat → List Bool → List Nat
  | 0, _ => []
  | count + 1, bits => bitsToNatLSB (bits.take w) :: unpackCodes w count (bits.drop w)

/-- Number of halvings of `n` until 0 — the bit width of `n`.  `fuel` bounds
the recursion; `fuel = n` suffices. -/
def bitsNeededAux : Nat → Nat → Nat
  | 0, _ => 0
  | fuel + 1, n => if n = 0 then 0 else bitsNeededAux fuel (n / 2) + 1

/-- The number of bits needed to represent `n` (`ceil(log2(n + 1))`). -/
def bitsNeeded (n : Nat) : Nat := bitsNeededAux n n

/-! ## Tile encoder / decoder

Modelled from the spec: the `TileEncoder`/`TileDecoder` component is absent
from the sources.  Valid pixels of a tile are gathered; an all-invalid tile
is a single empty-tile marker byte, a constant tile is a marker plus the
single value, and otherwise the quantized codes are bit-packed behind a
marker, offset, scale and bit width.  The spec fixes the tiling only as an
exact partition of the band (boundary tiles clipped); it is modelled as
row-major chunks of `tileSize^2` pixels, which realizes the same partition
contract — no claimed property depends on the rectangle geometry itself. -/

/-- Tile side length (the spec suggests 8 or 16). -/
def tileSize : Nat := 8

/-- Pixels per tile. -/
def tilePix : Nat := tileSize * tileSize

/-- Marker byte for a tile with no valid pixels. -/
def tileMarkerEmpty : Nat := 0

/-- Marker byte for a tile whose valid pixels share one value. -/
def tileMarkerConst : Nat := 1

/-- Marker byte for a bit-packed quantized tile. -/
def tileMarkerPacked : Nat := 2

/-- The values at valid positions of a tile, in order. -/
def gatherValid : List Bool → List ℚ → List ℚ
  | [], _ => []
  | _ :: _, [] => []
  | true :: ms, v :: vs => v :: gatherValid ms vs
  | false :: ms, _ :: vs => gatherValid ms vs

/-- The number of valid pixels of a mask. -/
def countTrue : List Bool → Nat
  | [] => 0
  | true :: ms => countTrue ms + 1
  | false :: ms => countTrue ms

/-- Scatter decoded valid values back into mask positions; invalid positions
take the noData value. -/
def scatterValid (nd : ℚ) : List Bool → List ℚ → List ℚ
  | [], _ => []
  | true :: ms, v :: vs => v :: scatterValid nd ms vs
  | true :: ms, [] => nd :: scatterValid nd ms []
  | false :: ms, vs => nd :: scatterValid nd ms vs

/-- Modelled from the spec: the per-tile encoder (empty marker, constant
marker + value, or packed marker + offset + scale + bit width + payload). -/
def tileEncode (t : ℚ) (vals : List ℚ) (mask : List Bool) :
    Except LercError (List Nat) :=
  match gatherValid mask vals with
  | [] => .ok [tileMarkerEmpty]
  | v :: vs =>
    if listMin v vs = listMax v vs then
      .ok (tileMarkerConst :: ratEncode (listMin v vs))
    else
      match quantize (v :: vs) t with
      | .error e => .error e
      | .ok (codes, scale, offset) =>
        let ncodes := codes.map Int.toNat
        let maxCode := ncodes.foldr max 0
        let w := max 1 (bitsNeeded maxCode)
        .ok (tileMarkerPacked ::
          (ratEncode offset ++ ratEncode scale ++ varintEncode w ++ packCodes w ncodes))

/-- Modelled from the spec: the per-tile decoder.  Branches on the marker
byte; for a packed tile reads `ceil(validCount * bitWidth / 8)` payload
bytes, unpacks and dequantizes.  Unknown markers fail with
`UnsupportedTileMarkerError`. -/
def tileDecode (validCount : Nat) (bytes : List Nat) :
    Except LercError (List ℚ × List Nat) :=
  match bytes with
  | [] => .error .truncatedStream
  | marker :: rest =>
    if marker = tileMarkerEmpty then .ok ([], rest)
    else if marker = tileMarkerConst then
      match ratDecode rest with
      | none => .error .truncatedStream
      | some (v, rest1) => .ok (List.replicate validCount v, rest1)
    else if marker = tileMarkerPacked then
      match ratDecode rest with
      | none => .error .truncatedStream
      | some (offset, r1) =>
        match ratDecode r1 with
        | none => .error .truncatedStream
        | some (scale, r2) =>
          match varintDecode r2 with
          | none => .error .truncatedStream
          | some (w, r3) =>
            let nBytes := (validCount * w + 7) / 8
            if r3.length < nBytes then .error .truncatedStream
            else
              let codes := unpackCodes w validCount (bytesToBits (r3.take nBytes))
              .ok (codes.map (fun (c : Nat) => offset + (c : ℚ) * scale), r3.drop nBytes)
    else .error .unsupportedTileMarker

/-- Encode one band tile by tile (chunks of `tilePix` pixels).  `fuel` bounds
the recursion; the pixel count suffices. -/
def bandEncodeAux (t : ℚ) : Nat → List ℚ → List Bool → Except LercError (List Nat)
  | _, [], _ => .ok []
  | 0, _ :: _, _ => .error .truncatedStream
  | fuel + 1, v :: vs, mask =>
    match tileEncode t ((v :: vs).take tilePix) (mask.take tilePix) with
    | .error e => .error e
    | .ok tb =>
      match bandEncodeAux t fuel ((v :: vs).drop tilePix) (mask.drop tilePix) with
      | .error e => .error e
      | .ok rb => .ok (tb ++ rb)

/-- Modelled from the spec: tile-wise encoding of one band. -/
def bandEncode (t : ℚ) (vals : List ℚ) (mask : List Bool) :
    Except LercError (List Nat) :=
  bandEncodeAux t vals.length vals mask

/-- Decode one band tile by tile, scattering each tile through its mask
chunk.  `fuel` bounds the recursion; the mask length suffices. -/
def bandDecodeAux (nd : ℚ) : Nat → List Bool → List Nat →
    Except LercError (List ℚ × List Nat)
  | _, [], bytes => .ok ([], bytes)
  | 0, _ :: _, _ => .error .truncatedStream
  | fuel + 1, b :: ms, bytes =>
    match tileDecode (countTrue ((b :: ms).take tilePix)) bytes with
    | .error e => .error e
    | .ok (tvals, rest) =>
      match bandDecodeAux nd fuel ((b :: ms).drop tilePix) rest with
      | .error e => .error e
      | .ok (more, rest1) =>
        .ok (scatterValid nd ((b :: ms).take tilePix) tvals ++ more, rest1)

/-- Modelled from the spec: tile-wise decoding of one band. -/
def bandDecode (nd : ℚ) (mask : List Bool) (bytes : List Nat) :
    Except LercError (List ℚ × List Nat) :=
  bandDecodeAux nd mask.length mask bytes

/-! ## Blob header and top-level codec

Modelled from the spec: `BlobHeader` and the `LercCodec` orchestration are
absent from the sources.  The header begins with a 4-byte magic/version tag;
the remaining fields follow as varints and serialized rationals.  The blob is
`header ++ mask bytes ++ per-band tile bytes`; the two-pass placeholder
patching of the reference design is realized by building the body first,
which the spec declares equivalent. -/

structure BlobHeader where
  formatVersion : Nat
  width : Nat
  height : Nat
  bandCount : Nat
  dataType : Nat
  globalMin : ℚ
  globalMax : ℚ
  validPixelCount : Nat
  maskPresent : Bool
  noDataValue : ℚ
  deriving DecidableEq, Repr

/-- First magic byte of a blob. -/
def magic0 : Nat := 76

/-- Second magic byte of a blob. -/
def magic1 : Nat := 69

/-- Third magic byte of a blob. -/
def magic2 : Nat := 82

/-- The only recognized format version. -/
def currentVersion : Nat := 1

/-- Modelled from the spec: serialize a blob header. -/
def headerEncode (h : BlobHeader) : List Nat :=
  [magic0, magic1, magic2, h.formatVersion] ++ varintEncode h.width ++
  varintEncode h.height ++ varintEncode h.bandCount ++ varintEncode h.dataType ++
  ratEncode h.globalMin ++ ratEncode h.globalMax ++
  varintEncode h.validPixelCount ++ [if h.maskPresent then 1 else 0] ++
  ratEncode h.noDataValue

/-- Read a varint, failing with `TruncatedStreamError` at end of stream. -/
def readVarint (bytes : List Nat) : Except LercError (Nat × List Nat) :=
  match varintDecode bytes with
  | none => .error .truncatedStream
  | some x => .ok x

/-- Read a serialized rational, failing with `TruncatedStreamError` at end of
stream. -/
def readRat (bytes : List Nat) : Except LercError (ℚ × List Nat) :=
  match ratDecode bytes with
  | none => .error .truncatedStream
  | some x => .ok x

/-- Modelled from the spec: parse a blob header, failing with
`MalformedHeaderError` when the magic tag does not match and with
`TruncatedStreamError` when the stream ends early. -/
def parseHeader (bytes : List Nat) : Except LercError (BlobHeader × List Nat) :=
  match bytes with
  | m0 :: m1 :: m2 :: v :: rest =>
    if m0 = magic0 ∧ m1 = magic1 ∧ m2 = magic2 then do
      let (w, r1) ← readVarint rest
      let (h, r2) ← readVarint r1
      let (bc, r3) ← readVarint r2
      let (dt, r4) ← readVarint r3
      let (gmin, r5) ← readRat r4
      let (gmax, r6) ← readRat r5
      let (vpc, r7) ← readVarint r6
      match r7 with
      | [] => .error .truncatedStream
      | mp :: r8 => do
        let (nd, r9) ← readRat r8
        .ok (⟨v, w, h, bc, dt, gmin, gmax, vpc, mp ≠ 0, nd⟩, r9)
    else .error .malformedHeader
  | _ => .error .malformedHeader

/-- A raster: dimensions plus one row-major value list per band.  Modelled
from the spec data model (a rectangular mapping from row, column and band to
a sample). -/
structure Raster where
  width : Nat
  height : Nat
  bands : List (List ℚ)

/-- Well-formedness of a raster: every band holds `width * height` samples. -/
def RasterWF (r : Raster) : Prop :=
  ∀ b ∈ r.bands, b.length = r.width * r.height

/-- Well-formedness of an optional mask for a raster: when present, it has
one bit per pixel. -/
def MaskWF (r : Raster) (mask? : Option (List Bool)) : Prop :=
  ∀ m ∈ mask?, m.length = r.width * r.height

/-- The effective validity mask: an absent mask means all pixels valid. -/
def effMask (r : Raster) (mask? : Option (List Bool)) : List Bool :=
  match mask? with
  | some m => m
  | none => List.replicate (r.width * r.height) true

/-- Encode every band against the shared mask, concatenating the outputs. -/
def bandsEncode (t : ℚ) (m : List Bool) : List (List ℚ) →
    Except LercError (List Nat)
  | [] => .ok []
  | b :: bs =>
    match bandEncode t b m with
    | .error e => .error e
    | .ok x =>
      match bandsEncode t m bs with
      | .error e => .error e
      | .ok y => .ok (x ++ y)

/-- Modelled from the spec: `LercCodec.encode raster mask tolerance` (the
noData value recorded in the header is supplied by the encoding caller; the
spec leaves its origin open).  Produces
`header ++ mask bytes ++ per-band tile bytes`. -/
def encode (r : Raster) (mask? : Option (List Bool)) (nd t : ℚ) :
    Except LercError (List Nat) :=
  let m := effMask r mask?
  let vv := r.bands.flatMap (fun b => gatherValid m b)
  let gmin := match vv with | [] => 0 | v :: vs => listMin v vs
  let gmax := match vv with | [] => 0 | v :: vs => listMax v vs
  let hdr : BlobHeader :=
    ⟨currentVersion, r.width, r.height, r.bands.length, 7, gmin, gmax,
      countTrue m, mask?.isSome, nd⟩
  match bandsEncode t m r.bands with
  | .error e => .error e
  | .ok bb =>
    .ok (headerEncode hdr ++ (if mask?.isSome then maskEncode m else []) ++ bb)

/-- Decode `n` bands in sequence against the shared mask. -/
def bandsDecode (nd : ℚ) : Nat → List Bool → List Nat →
    Except LercError (List ℚ × List Nat)
  | 0, _, bytes => .ok ([], bytes)
  | n + 1, m, bytes =>
    match bandDecode nd m bytes with
    | .error e => .error e
    | .ok (band, rest) =>
      match bandsDecode nd n m rest with
      | .error e => .error e
      | .ok (more, rest1) => .ok (band ++ more, rest1)

/-- Modelled from the spec: `LercCodec.decode blob` — parse the header,
decode the mask when present, then decode every band; any failure is
terminal and returns only the error. -/
def decode (blob : List Nat) : Except LercError (List ℚ) :=
  match parseHeader blob with
  | .error e => .error e
  | .ok (hdr, r1) =>
    match (if hdr.maskPresent then maskDecodeStream (hdr.width * hdr.height) r1
           else .ok (List.replicate (hdr.width * hdr.height) true, r1)) with
    | .error e => .error e
    | .ok (m, r2) =>
      match bandsDecode hdr.noDataValue hdr.bandCount m r2 with
      | .error e => .error e
      | .ok (out, _) => .ok out

/-- Metadata reported by `getInfo`. -/
structure LercBlobInfo where
  width : Nat
  height : Nat
  bandCount : Nat
  dataType : Nat
  validPixelCount : Nat
  minValue : ℚ
  maxValue : ℚ
  noDataValue : ℚ
  deriving DecidableEq, Repr

/-- Modelled from the spec: `LercCodec.getInfo blob` parses only the header,
failing with `MalformedHeaderError` when the declared format version is
unrecognized or a dimension is zero. -/
def getInfo (blob : List Nat) : Except LercError LercBlobInfo :=
  match parseHeader blob with
  | .error e => .error e
  | .ok (hdr, _) =>
    if hdr.formatVersion ≠ currentVersion then .error .malformedHeader
    else if hdr.width = 0 ∨ hdr.height = 0 then .error .malformedHeader
    else
      .ok ⟨hdr.width, hdr.height, hdr.bandCount, hdr.dataType,
        hdr.validPixelCount, hdr.globalMin, hdr.globalMax, hdr.noDataValue⟩

/-! ## Platform wrapper layer (translated from the supplied C sources)

Two wrapper variants exist in the repository:
the example app shim `maplibre_gl_example/src/lerc_wrapper/lerc_wrapper.cpp`
(stateless) and the iOS package shim
`maplibre_gl/ios/maplibre_gl/Sources/maplibre_gl/LERC/lerc_wrapper.cpp`
(guarded by a process-wide `initialized` flag).  The external prebuilt LERC
entry points (`lerc_getBlobInfo`, `lerc_decode`, `LercNS::Lerc::GetLercInfo`,
`LercNS::Lerc::Decode`) are not part of the sources and are taken as oracle
function parameters. -/

/-- The `LercInfo` struct shared by both wrapper variants. -/
structure WLercInfo where
  width : Nat
  height : Nat
  numBands : Nat
  numValidPixels : Nat
  minValue : ℚ
  maxValue : ℚ
  noDataValue : ℚ
  deriving DecidableEq, Repr

/-- Oracle for the external `lerc_getBlobInfo`: on success, the filled
`infoArray` and `dataRangeArray`. -/
def GetBlobInfoOracle : Type :=
  List Nat → Option (List Nat × List ℚ)

/-- Oracle for the external `lerc_decode` and `Lerc_decode`: arguments are
buffer, width, height, band count and data type (6 = float, 7 = double); on
success, the decoded samples. -/
def LercDecodeOracle : Type :=
  List Nat → Nat → Nat → Nat → Nat → Option (List ℚ)

/-- Float-to-double widening.  On the represented numeric value this is
exact, so it is the identity of the model. -/
def floatToDouble (x : ℚ) : ℚ := x

/-- `lerc_wrapper_initialize` of the example variant: returns `true` and
touches no state. -/
def exWrapperInit : Bool := true

/-- `lerc_wrapper_get_info` of the example variant: queries the blob info
oracle and, on success, fills a `LercInfo` from `infoArray[3..6]` and
`dataRangeArray[0..1]` with a fixed noData value of `-9999`. -/
def exWrapperGetInfo (getBlobInfo : GetBlobInfoOracle) (buffer : List Nat) :
    Option WLercInfo :=
  match getBlobInfo buffer with
  | none => none
  | some (infoArr, dataRange) =>
    some ⟨infoArr.getD 3 0, infoArr.getD 4 0, infoArr.getD 5 0, infoArr.getD 6 0,
      dataRange.getD 0 0, dataRange.getD 1 0, -9999⟩

/-- `lerc_wrapper_decode` of the example variant: requires a non-null info;
first attempts a float (type 6) decode of a single band at the info
dimensions, widening the result to doubles on success; only on failure
attempts a double (type 7) decode; returns null exactly when both fail. -/
def exWrapperDecode (dec : LercDecodeOracle) (buffer : List Nat)
    (info : Option WLercInfo) : Option (List ℚ) :=
  match info with
  | none => none
  | some i =>
    match dec buffer i.width i.height 1 6 with
    | some floatData => some (floatData.map floatToDouble)
    | none =>
      match dec buffer i.width i.height 1 7 with
      | some doubleData => some doubleData
      | none => none

/-- Oracle for the external `LercNS::Lerc::GetLercInfo`: on success, the
fields `nCols, nRows, nBands, numValidPixel, dt, zMin, zMax`. -/
def GetLercInfoOracle : Type :=
  List Nat → Option (Nat × Nat × Nat × Nat × Nat × ℚ × ℚ)

/-- Result record written through the out-parameters of `Lerc_getInfo`. -/
structure IosGetInfoResult where
  nCols : Nat
  nRows : Nat
  nBands : Nat
  nValidPixels : Nat
  dataType : Nat
  minValue : ℚ
  maxValue : ℚ
  noDataValue : ℚ
  deriving DecidableEq, Repr

/-- `Lerc_getInfo` of the iOS package variant
(`Lerc_c_api_impl.cpp`): forwards the library info and always writes
`noDataValue = 0` ("LERC2 supports per-band noData, but for simplicity, set
to 0 here"). -/
def iosLercGetInfo (g : GetLercInfoOracle) (blob : List Nat) :
    Option IosGetInfoResult :=
  match g blob with
  | none => none
  | some (c, r, b, vp, dt, zmin, zmax) => some ⟨c, r, b, vp, dt, zmin, zmax, 0⟩

/-- `lerc_wrapper_initialize` of the iOS variant: sets the process-wide
`initialized` flag (the state is the `Bool` passed and returned) and reports
success. -/
def iosWrapperInit (_s : Bool) : Bool × Bool := (true, true)

/-- `lerc_wrapper_get_info` of the iOS variant: self-initializes when the
flag is unset, then forwards `Lerc_getInfo`.  The returned info does not
depend on the incoming state; the outgoing state is always `true`. -/
def iosWrapperGetInfo (g : GetLercInfoOracle) (_s : Bool) (buffer : List Nat) :
    Option WLercInfo × Bool :=
  match iosLercGetInfo g buffer with
  | none => (none, true)
  | some i =>
    (some ⟨i.nCols, i.nRows, i.nBands, i.nValidPixels, i.minValue, i.maxValue,
      i.noDataValue⟩, true)

/-- `lerc_wrapper_decode` of the iOS variant: returns null immediately when
the `initialized` flag is unset or the info is null; otherwise attempts a
float (type 6) decode over all bands, widening to doubles on success, then a
double (type 7) decode. -/
def iosWrapperDecode (dec : LercDecodeOracle) (s : Bool) (buffer : List Nat)
    (info : Option WLercInfo) : Option (List ℚ) :=
  if s = false then none
  else
    match info with
    | none => none
    | some i =>
      match dec buffer i.width i.height i.numBands 6 with
      | some floatData => some (floatData.map floatToDouble)
      | none =>
        match dec buffer i.width i.height i.numBands 7 with
        | some doubleData => some doubleData
        | none => none

/-! ## Pixel reconstruction relation and concrete witness inputs -/

/-- The per-pixel reconstruction contract: a valid pixel is reproduced within
the tolerance, an invalid pixel becomes the noData value. -/
def pixRel (nd t : ℚ) (p : ℚ × Bool) (o : ℚ) : Prop :=
  (p.2 = true → |o - p.1| ≤ t) ∧ (p.2 = false → o = nd)

/-- A concrete 2x1 single-band raster used by witnesses. -/
def exRaster : Raster := ⟨2, 1, [[5, 7]]⟩

/-- A concrete mask leaving only the first pixel valid. -/
def exMaskOpt : Option (List Bool) := some [true, false]

/-- The blob produced by encoding the witness raster. -/
def exBlob : List Nat :=
  match encode exRaster exMaskOpt (-9999) 0 with
  | .ok b => b
  | .error _ => []

/-- A degenerate zero-width, zero-height raster used as a counterexample
input. -/
def zeroRaster : Raster := ⟨0, 0, [[]]⟩

/-- The blob produced by encoding the degenerate raster. -/
def zeroBlob : List Nat :=
  match encode zeroRaster none 0 0 with
  | .ok b => b
  | .error _ => []

/-- The raster decoded back from the witness blob. -/
def exDecoded : List ℚ :=
  match decode exBlob with
  | .ok o => o
  | .error _ => []

/-- The header parsed back from the witness blob (with its tail). -/
def exParsed : BlobHeader × List Nat :=
  match parseHeader exBlob with
  | .ok x => x
  | .error _ => (⟨0, 0, 0, 0, 0, 0, 0, 0, false, 0⟩, [])

/-- A concrete blob-info oracle used by wrapper witnesses. -/
def exInfoOracle : GetBlobInfoOracle :=
  fun _ => some ([10, 11, 12, 4, 3, 1, 4], [2, 9])

/-- The info produced by the example wrapper on the concrete oracle. -/
def exWInfo : WLercInfo :=
  match exWrapperGetInfo exInfoOracle [] with
  | some i => i
  | none => ⟨0, 0, 0, 0, 0, 0, 0⟩

/-- A concrete library-info oracle used by wrapper witnesses. -/
def iosInfoOracle : GetLercInfoOracle :=
  fun _ => some (4, 3, 1, 12, 6, 0, 5)

/-- The record written by the iOS `Lerc_getInfo` on the concrete oracle. -/
def iosInfoRes : IosGetInfoResult :=
  match iosLercGetInfo iosInfoOracle [] with
  | some r => r
  | none => ⟨0, 0, 0, 0, 0, 0, 0, 0⟩

/-- A concrete decode oracle that succeeds only for the float data type. -/
def exDecOracle : LercDecodeOracle :=
  fun _ _ _ _ dt => if dt = 6 then some [1, 2] else none

/-- A concrete 2x1 single-band info record. -/
def exWInfo2 : WLercInfo := ⟨2, 1, 1, 2, 0, 0, 0⟩

/-- A second concrete decode oracle succeeding only for floats. -/
def exDecOracle2 : LercDecodeOracle :=
  fun _ _ _ _ dt => if dt = 6 then some [3] else none

/-- A concrete 1x1 single-band info record. -/
def exWInfo3 : WLercInfo := ⟨1, 1, 1, 1, 0, 0, 0⟩

/-! ## Lemmas: varints -/

/-- The varint encoder never produces an empty byte list. -/
theorem varintEncodeAux_ne_nil (fuel n : Nat) : varintEncodeAux fuel n ≠ [] := by
  cases fuel with
  | zero => simp [varintEncodeAux]
  | succ fuel =>
    by_cases h : n < 128 <;> simp [varintEncodeAux, h]

/-- The varint encoder never produces an empty byte list. -/
theorem varintEncode_ne_nil (n : Nat) : varintEncode n ≠ [] :=
  varintEncodeAux_ne_nil n n

/-- Decoding an encoded varint returns the value and the unconsumed tail. -/
theorem varintDecode_encodeAux :
    ∀ fuel n rest, n ≤ fuel →
      varintDecode (varintEncodeAux fuel n ++ rest) = some (n, rest) := by
  intro fuel
  induction fuel with
  | zero =>
    intro n rest hn
    interval_cases n
    simp [varintEncodeAux, varintDecode]
  | succ fuel ih =>
    intro n rest hn
    by_cases h : n < 128
    · simp [varintEncodeAux, varintDecode, h]
    · have h128 : 128 ≤ n := le_of_not_lt h
      have hlt : n / 128 < n := Nat.div_lt_self (by omega) (by omega)
      have hdiv : n / 128 ≤ fuel := by omega
      have hmod : ¬ (n % 128 + 128 < 128) := by omega
      have hval : n % 128 + 128 - 128 + 128 * (n / 128) = n := by
        have := Nat.mod_add_div n 128
        omega
      simp only [varintEncodeAux, h, if_false, List.cons_append, varintDecode,
        hmod, if_false, ih (n / 128) rest hdiv, hval]

/-- Decoding an encoded varint returns the value and the unconsumed tail. -/
theorem varintDecode_encode (n : Nat) (rest : List Nat) :
    varintDecode (varintEncode n ++ rest) = some (n, rest) :=
  varintDecode_encodeAux n n rest le_rfl

/-- A successful varint decode consumes at least one byte. -/
theorem varintDecode_consumes :
    ∀ bytes n rest, varintDecode bytes = some (n, rest) →
      rest.length < bytes.length := by
  intro bytes
  induction bytes with
  | nil => intro n rest h; simp [varintDecode] at h
  | cons b bs ih =>
    intro n rest h
    by_cases hb : b < 128
    · simp [varintDecode, hb] at h
      simp [← h.2]
    · simp only [varintDecode, hb, if_false] at h
      cases hd : varintDecode bs with
      | none => rw [hd] at h; simp at h
      | some x =>
        rw [hd] at h
        simp at h
        have := ih x.1 x.2 (by rw [hd])
        have hx : rest = x.2 := by rw [← h.2]
        rw [hx]
        simp
        omega

/-- Reading a concatenation of encoded varints with enough fuel recovers the
original list of values. -/
theorem varintDecodeList_encode :
    ∀ rs fuel, rs.length ≤ fuel →
      varintDecodeList fuel (rs.flatMap varintEncode) = some rs := by
  intro rs
  induction rs with
  | nil => intro fuel _; simp [varintDecodeList]
  | cons r rs ih =>
    intro fuel hf
    obtain ⟨fuel, rfl⟩ : ∃ f, fuel = f + 1 := by
      cases fuel with
      | zero => simp at hf
      | succ f => exact ⟨f, rfl⟩
    have hne := varintEncode_ne_nil r
    obtain ⟨b, bs, hb⟩ : ∃ b bs, varintEncode r = b :: bs := by
      cases hv : varintEncode r with
      | nil => exact absurd hv hne
      | cons b bs => exact ⟨b, bs, rfl⟩
    have hdec := varintDecode_encode r (rs.flatMap varintEncode)
    have hconcat : (r :: rs).flatMap varintEncode
        = b :: (bs ++ rs.flatMap varintEncode) := by
      simp [List.flatMap_cons, hb]
    rw [hconcat]
    have hstep : varintDecode (b :: (bs ++ rs.flatMap varintEncode))
        = some (r, rs.flatMap varintEncode) := by
      rw [← List.cons_append, ← hb]; exact hdec
    simp only [varintDecodeList, hstep]
    rw [ih fuel (by simpa using hf)]

/-- Each encoded varint occupies at least one byte, so a flat list of
encoded varints is at least as long as the count of values. -/
theorem flatMap_varintEncode_length (rs : List Nat) :
    rs.length ≤ (rs.flatMap varintEncode).length := by
  induction rs with
  | nil => simp
  | cons r rs ih =>
    have hne := varintEncode_ne_nil r
    have : 1 ≤ (varintEncode r).length := by
      cases hv : varintEncode r with
      | nil => exact absurd hv hne
      | cons b bs => simp
    simp only [List.flatMap_cons, List.length_append, List.length_cons]
    omega

/-! ## Lemmas: rational serialization -/

/-- Zigzag folding round-trips. -/
theorem unzigzag_zigzag (i : Int) : unzigzag (zigzag i) = i := by
  by_cases h : 0 ≤ i
  · have h2 : (2 * i.toNat) % 2 = 0 := by omega
    simp [zigzag, unzigzag, h, h2]
  · have h1 : 1 ≤ (-i).toNat := by omega
    have hodd : (2 * (-i).toNat - 1) % 2 = 1 := by omega
    simp only [zigzag, unzigzag, h, if_false, hodd]
    simp only [show ¬ (1 = 0) from one_ne_zero, if_false]
    have hdiv : (2 * (-i).toNat - 1) / 2 = (-i).toNat - 1 := by omega
    rw [hdiv]
    omega

/-- Decoding an encoded rational returns the value and the tail. -/
theorem ratDecode_encode (q : ℚ) (rest : List Nat) :
    ratDecode (ratEncode q ++ rest) = some (q, rest) := by
  simp only [ratEncode, ratDecode, List.append_assoc, varintDecode_encode,
    unzigzag_zigzag, Rat.mkRat_self]

/-! ## Lemmas: mask run-length codec -/

/-- The run lengths of a mask account for every pixel. -/
theorem runsAux_sum : ∀ (xs : List Bool) (b : Bool) (n : Nat),
    (runsAux b n xs).sum = n + xs.length := by
  intro xs
  induction xs with
  | nil => intro b n; simp [runsAux]
  | cons x xs ih =>
    intro b n
    by_cases h : x = b
    · simp [runsAux, h, ih]
      omega
    · simp [runsAux, h, ih]
      omega

/-- Expanding the runs of a mask reproduces the mask (with the pending run
prefix). -/
theorem expandRuns_runsAux : ∀ (xs : List Bool) (b : Bool) (n : Nat),
    expandRuns b (runsAux b n xs) = List.replicate n b ++ xs := by
  intro xs
  induction xs with
  | nil => intro b n; simp [runsAux, expandRuns]
  | cons x xs ih =>
    intro b n
    by_cases h : x = b
    · rw [runsAux, if_pos h, ih, List.replicate_succ']
      simp [h]
    · have hb : x = !b := by
        cases x <;> cases b <;> simp_all
      rw [runsAux, if_neg h, expandRuns, hb, ih]
      simp [← hb, List.replicate_succ]

/-- Expanded runs cover exactly the sum of the run lengths. -/
theorem expandRuns_length : ∀ (rs : List Nat) (b : Bool),
    (expandRuns b rs).length = rs.sum := by
  intro rs
  induction rs with
  | nil => intro b; simp [expandRuns]
  | cons r rs ih => intro b; simp [expandRuns, ih]

/-- Run lists are never empty, the head is at least the pending count, and
every later run is positive. -/
theorem runsAux_shape : ∀ (xs : List Bool) (b : Bool) (n : Nat),
    ∃ r0 rs, runsAux b n xs = r0 :: rs ∧ n ≤ r0 ∧ ∀ r ∈ rs, 0 < r := by
  intro xs
  induction xs with
  | nil => intro b n; exact ⟨n, [], by simp [runsAux]⟩
  | cons x xs ih =>
    intro b n
    by_cases h : x = b
    · obtain ⟨r0, rs, heq, hle, hpos⟩ := ih b (n + 1)
      rw [runsAux, if_pos h]
      exact ⟨r0, rs, heq, by omega, hpos⟩
    · obtain ⟨r0, rs, heq, hle, hpos⟩ := ih x 1
      rw [runsAux, if_neg h]
      refine ⟨n, r0 :: rs, by rw [heq], le_rfl, ?_⟩
      intro r hr
      rcases List.mem_cons.mp hr with h1 | h2
      · omega
      · exact hpos r h2

/-- Reading a concatenation of encoded positive runs whose total closes the
target consumes exactly those runs. -/
theorem readRunsLoop_encode :
    ∀ (rs : List Nat) (fuel acc target : Nat) (rest : List Nat),
      (∀ r ∈ rs, 0 < r) → acc + rs.sum = target → rs.length ≤ fuel →
      readRunsLoop fuel target acc (rs.flatMap varintEncode ++ rest)
        = .ok (rs, rest) := by
  intro rs
  induction rs with
  | nil =>
    intro fuel acc target rest _ hsum _
    have hacc : acc = target := by simpa using hsum
    cases fuel with
    | zero => rw [readRunsLoop, if_pos hacc]; simp
    | succ f => rw [readRunsLoop, if_pos hacc]; simp
  | cons r rs ih =>
    intro fuel acc target rest hpos hsum hf
    have hrpos : 0 < r := hpos r (List.mem_cons_self r rs)
    have hne : acc ≠ target := by
      simp only [List.sum_cons] at hsum
      omega
    obtain ⟨fuel, rfl⟩ : ∃ f, fuel = f + 1 := by
      cases fuel with
      | zero => simp at hf
      | succ f => exact ⟨f, rfl⟩
    have hconcat : (r :: rs).flatMap varintEncode ++ rest
        = varintEncode r ++ (rs.flatMap varintEncode ++ rest) := by
      simp [List.flatMap_cons]
    have hle : ¬ target < acc + r := by
      simp only [List.sum_cons] at hsum
      omega
    have hrec := ih fuel (acc + r) target rest
      (fun x hx => hpos x (List.mem_cons_of_mem r hx))
      (by simp only [List.sum_cons] at hsum; omega) (by simpa using hf)
    rw [hconcat, readRunsLoop, if_neg hne]
    simp only [varintDecode_encode, if_neg hle, hrec]

/-- The in-blob mask reader inverts the mask encoder, leaving the tail. -/
theorem maskDecodeStream_encode (m : List Bool) (rest : List Nat) :
    maskDecodeStream m.length (maskEncode m ++ rest) = .ok (m, rest) := by
  obtain ⟨r0, rs, heq, _, hpos⟩ := runsAux_shape m true 0
  have hsum : r0 + rs.sum = m.length := by
    have := runsAux_sum m true 0
    rw [heq] at this
    simpa using this
  have hexp : expandRuns true (r0 :: rs) = m := by
    have := expandRuns_runsAux m true 0
    rw [heq] at this
    simpa using this
  have hconcat : maskEncode m ++ rest
      = varintEncode r0 ++ (rs.flatMap varintEncode ++ rest) := by
    simp [maskEncode, maskRuns, heq, List.flatMap_cons]
  have hr0 : ¬ m.length < r0 := by omega
  have hfuel : rs.length ≤ (rs.flatMap varintEncode ++ rest).length := by
    have h1 := flatMap_varintEncode_length rs
    simp only [List.length_append]
    omega
  have hloop := readRunsLoop_encode rs _ r0 m.length rest hpos hsum hfuel
  rw [hconcat, maskDecodeStream]
  simp only [varintDecode_encode, if_neg hr0, hloop, hexp]

/-- A successful in-loop run read covers exactly the remaining target. -/
theorem readRunsLoop_ok_sum :
    ∀ fuel target acc bytes rs rest,
      readRunsLoop fuel target acc bytes = .ok (rs, rest) →
      acc + rs.sum = target := by
  intro fuel
  induction fuel with
  | zero =>
    intro target acc bytes rs rest h
    rw [readRunsLoop] at h
    by_cases hacc : acc = target
    · rw [if_pos hacc] at h
      simp at h
      rw [h.1]
      simpa using hacc
    · rw [if_neg hacc] at h
      simp at h
  | succ fuel ih =>
    intro target acc bytes rs rest h
    rw [readRunsLoop] at h
    by_cases hacc : acc = target
    · rw [if_pos hacc] at h
      simp at h
      rw [h.1]
      simpa using hacc
    · rw [if_neg hacc] at h
      cases hv : varintDecode bytes with
      | none => rw [hv] at h; simp at h
      | some x =>
        obtain ⟨r, rest2⟩ := x
        rw [hv] at h
        simp only at h
        by_cases hlt : target < acc + r
        · rw [if_pos hlt] at h; simp at h
        · rw [if_neg hlt] at h
          cases hrec : readRunsLoop fuel target (acc + r) rest2 with
          | error e => rw [hrec] at h; simp at h
          | ok y =>
            obtain ⟨rs2, rest3⟩ := y
            rw [hrec] at h
            simp at h
            obtain ⟨h1, h2⟩ := h
            have := ih target (acc + r) rest2 rs2 rest3 (by rw [hrec])
            rw [← h1]
            simp only [List.sum_cons]
            omega

/-- A successfully stream-decoded mask has exactly `target` pixels. -/
theorem maskDecodeStream_ok_length (target : Nat) (bytes : List Nat)
    (m : List Bool) (rest : List Nat)
    (h : maskDecodeStream target bytes = .ok (m, rest)) :
    m.length = target := by
  rw [maskDecodeStream] at h
  cases hv : varintDecode bytes with
  | none => rw [hv] at h; simp at h
  | some x =>
    obtain ⟨r0, rest0⟩ := x
    rw [hv] at h
    simp only at h
    by_cases hlt : target < r0
    · rw [if_pos hlt] at h; simp at h
    · rw [if_neg hlt] at h
      cases hrec : readRunsLoop rest0.length target r0 rest0 with
      | error e => rw [hrec] at h; simp at h
      | ok y =>
        obtain ⟨rs, rest1⟩ := y
        rw [hrec] at h
        simp at h
        have hsum := readRunsLoop_ok_sum _ _ _ _ _ _ hrec
        rw [← h.1, expandRuns_length]
        simp only [List.sum_cons]
        omega

/-! ## Lemmas: bit packing -/

/-- A fixed-width bit expansion has exactly that width. -/
theorem natToBitsLSB_length : ∀ (w n : Nat), (natToBitsLSB w n).length = w := by
  intro w
  induction w with
  | zero => intro n; simp [natToBitsLSB]
  | succ w ih => intro n; simp [natToBitsLSB, ih]

/-- Reassembling a fixed-width bit expansion recovers the value. -/
theorem bitsToNatLSB_natToBits : ∀ (w n : Nat), n < 2 ^ w →
    bitsToNatLSB (natToBitsLSB w n) = n := by
  intro w
  induction w with
  | zero =>
    intro n hn
    interval_cases n
    simp [natToBitsLSB, bitsToNatLSB]
  | succ w ih =>
    intro n hn
    have hdiv : n / 2 < 2 ^ w := by
      rw [Nat.div_lt_iff_lt_mul (by norm_num)]
      calc n < 2 ^ (w + 1) := hn
      _ = 2 ^ w * 2 := by ring
    simp only [natToBitsLSB, bitsToNatLSB, ih (n / 2) hdiv]
    rcases Nat.mod_two_eq_zero_or_one n with h2 | h2 <;> simp [h2] <;> omega

/-- The zero value expands to all-clear bits. -/
theorem natToBitsLSB_zero : ∀ (w : Nat), natToBitsLSB w 0 = List.replicate w false := by
  intro w
  induction w with
  | zero => simp [natToBitsLSB]
  | succ w ih => simp [natToBitsLSB, ih, List.replicate_succ]

/-- Expanding a reassembled bit list pads it with clear bits. -/
theorem natToBits_bitsToNat : ∀ (bs : List Bool) (w : Nat), bs.length ≤ w →
    natToBitsLSB w (bitsToNatLSB bs) = bs ++ List.replicate (w - bs.length) false := by
  intro bs
  induction bs with
  | nil => intro w _; simp [bitsToNatLSB, natToBitsLSB_zero]
  | cons b bs ih =>
    intro w hw
    obtain ⟨w, rfl⟩ : ∃ v, w = v + 1 := by
      cases w with
      | zero => simp at hw
      | succ v => exact ⟨v, rfl⟩
    have hlen : bs.length ≤ w := by simpa using hw
    cases b with
    | true =>
      have hmod : (1 + 2 * bitsToNatLSB bs) % 2 = 1 := by omega
      have hdiv : (1 + 2 * bitsToNatLSB bs) / 2 = bitsToNatLSB bs := by omega
      show natToBitsLSB (w + 1) (1 + 2 * bitsToNatLSB bs) = _
      rw [natToBitsLSB, hdiv, ih w hlen]
      simp [hmod]
    | false =>
      have hmod : ¬ ((0 + 2 * bitsToNatLSB bs) % 2 = 1) := by omega
      have hdiv : (0 + 2 * bitsToNatLSB bs) / 2 = bitsToNatLSB bs := by omega
      show natToBitsLSB (w + 1) (0 + 2 * bitsToNatLSB bs) = _
      rw [natToBitsLSB, hdiv, ih w hlen]
      simp [hmod]

/-- A bit list reassembles below `2 ^ length`. -/
theorem bitsToNatLSB_lt : ∀ (bs : List Bool), bitsToNatLSB bs < 2 ^ bs.length := by
  intro bs
  induction bs with
  | nil => simp [bitsToNatLSB]
  | cons b bs ih =>
    have h2 : 2 ^ (b :: bs).length = 2 * 2 ^ bs.length := by
      simp [pow_succ]; ring
    rw [h2]
    cases b <;> simp [bitsToNatLSB] <;> omega

/-- Bytes produced from a bit stream carry the stream plus clear padding. -/
theorem bytesToBits_bitsToBytesAux : ∀ (fuel : Nat) (bits : List Bool),
    bits.length ≤ fuel →
    ∃ k, bytesToBits (bitsToBytesAux fuel bits) = bits ++ List.replicate k false := by
  intro fuel
  induction fuel with
  | zero =>
    intro bits hf
    have : bits = [] := List.length_eq_zero.mp (by omega)
    subst this
    exact ⟨0, by simp [bitsToBytesAux, bytesToBits]⟩
  | succ fuel ih =>
    intro bits hf
    cases bits with
    | nil => exact ⟨0, by simp [bitsToBytesAux, bytesToBits]⟩
    | cons b bs =>
      have hstep : bitsToBytesAux (fuel + 1) (b :: bs)
          = bitsToNatLSB ((b :: bs).take 8) :: bitsToBytesAux fuel ((b :: bs).drop 8) := rfl
      by_cases hlen : (b :: bs).length ≤ 8
      · have htake : (b :: bs).take 8 = b :: bs := List.take_of_length_le hlen
        have hdrop : (b :: bs).drop 8 = [] := List.drop_of_length_le hlen
        refine ⟨8 - (b :: bs).length, ?_⟩
        rw [hstep, htake, hdrop]
        simp only [bitsToBytesAux, bytesToBits, List.flatMap_cons, List.flatMap_nil,
          List.append_nil]
        exact natToBits_bitsToNat (b :: bs) 8 hlen
      · have h8 : ((b :: bs).take 8).length = 8 := by
          rw [List.length_take]
          omega
        have hfd : ((b :: bs).drop 8).length ≤ fuel := by
          rw [List.length_drop]
          simp only [List.length_cons] at hf ⊢
          omega
        obtain ⟨k, hk⟩ := ih ((b :: bs).drop 8) hfd
        refine ⟨k, ?_⟩
        rw [hstep]
        simp only [bytesToBits, List.flatMap_cons]
        have hrt : natToBitsLSB 8 (bitsToNatLSB ((b :: bs).take 8)) = (b :: bs).take 8 := by
          rw [natToBits_bitsToNat _ 8 (by omega), h8]
          simp
        rw [hrt]
        show (b :: bs).take 8 ++ bytesToBits (bitsToBytesAux fuel ((b :: bs).drop 8)) = _
        rw [hk, ← List.append_assoc, List.take_append_drop]

/-- Bytes produced from a bit stream carry the stream plus clear padding. -/
theorem bytesToBits_bitsToBytes (bits : List Bool) :
    ∃ k, bytesToBits (bitsToBytes bits) = bits ++ List.replicate k false :=
  bytesToBits_bitsToBytesAux bits.length bits le_rfl

/-- Byte grouping yields `ceil(bitCount / 8)` bytes. -/
theorem bitsToBytesAux_length : ∀ (fuel : Nat) (bits : List Bool),
    bits.length ≤ fuel →
    (bitsToBytesAux fuel bits).length = (bits.length + 7) / 8 := by
  intro fuel
  induction fuel with
  | zero =>
    intro bits hf
    have : bits = [] := List.length_eq_zero.mp (by omega)
    subst this
    simp [bitsToBytesAux]
  | succ fuel ih =>
    intro bits hf
    cases bits with
    | nil => simp [bitsToBytesAux]
    | cons b bs =>
      have hstep : bitsToBytesAux (fuel + 1) (b :: bs)
          = bitsToNatLSB ((b :: bs).take 8) :: bitsToBytesAux fuel ((b :: bs).drop 8) := rfl
      have hfd : ((b :: bs).drop 8).length ≤ fuel := by
        rw [List.length_drop]
        simp only [List.length_cons] at hf ⊢
        omega
      rw [hstep]
      simp only [List.length_cons, ih _ hfd, List.length_drop]
      omega

/-- Fixed-width expansions of a code list have `count * width` bits. -/
theorem flatMap_natToBits_length (w : Nat) : ∀ (codes : List Nat),
    (codes.flatMap (natToBitsLSB w)).length = codes.length * w := by
  intro codes
  induction codes with
  | nil => simp
  | cons c cs ih =>
    simp only [List.flatMap_cons, List.length_append, natToBitsLSB_length, ih,
      List.length_cons]
    ring

/-- The packed payload occupies `ceil(count * bitWidth / 8)` bytes. -/
theorem packCodes_length (w : Nat) (codes : List Nat) :
    (packCodes w codes).length = (codes.length * w + 7) / 8 := by
  rw [packCodes, bitsToBytes, bitsToBytesAux_length _ _ le_rfl,
    flatMap_natToBits_length]

/-- Unpacking a flat expansion (with any trailing bits) recovers the codes. -/
theorem unpackCodes_flatMap (w : Nat) : ∀ (codes : List Nat) (extra : List Bool),
    (∀ c ∈ codes, c < 2 ^ w) →
    unpackCodes w codes.length (codes.flatMap (natToBitsLSB w) ++ extra) = codes := by
  intro codes
  induction codes with
  | nil => intro extra _; simp [unpackCodes]
  | cons c cs ih =>
    intro extra hlt
    have hw : (natToBitsLSB w c).length = w := natToBitsLSB_length w c
    have harr : (c :: cs).flatMap (natToBitsLSB w) ++ extra
        = natToBitsLSB w c ++ (cs.flatMap (natToBitsLSB w) ++ extra) := by
      simp [List.flatMap_cons]
    have htake : (natToBitsLSB w c ++ (cs.flatMap (natToBitsLSB w) ++ extra)).take w
        = natToBitsLSB w c := List.take_left' hw
    have hdrop : (natToBitsLSB w c ++ (cs.flatMap (natToBitsLSB w) ++ extra)).drop w
        = cs.flatMap (natToBitsLSB w) ++ extra := List.drop_left' hw
    simp only [List.length_cons, unpackCodes, harr, htake, hdrop]
    rw [bitsToNatLSB_natToBits w c (hlt c (List.mem_cons_self c cs)),
      ih extra (fun x hx => hlt x (List.mem_cons_of_mem c hx))]

/-- Unpacking a packed payload recovers the codes. -/
theorem unpack_pack (w : Nat) (codes : List Nat) (h : ∀ c ∈ codes, c < 2 ^ w) :
    unpackCodes w codes.length (bytesToBits (packCodes w codes)) = codes := by
  obtain ⟨k, hk⟩ := bytesToBits_bitsToBytes (codes.flatMap (natToBitsLSB w))
  rw [packCodes, hk, unpackCodes_flatMap w codes _ h]

/-- Every natural fits in its computed bit width. -/
theorem lt_two_pow_bitsNeededAux : ∀ (fuel n : Nat), n ≤ fuel →
    n < 2 ^ bitsNeededAux fuel n := by
  intro fuel
  induction fuel with
  | zero =>
    intro n hn
    interval_cases n
    simp [bitsNeededAux]
  | succ fuel ih =>
    intro n hn
    by_cases h0 : n = 0
    · subst h0; simp [bitsNeededAux]
    · have hdiv : n / 2 ≤ fuel := by
        have : n / 2 < n := Nat.div_lt_self (by omega) (by omega)
        omega
      have hlt := ih (n / 2) hdiv
      simp only [bitsNeededAux, h0, if_false]
      rw [pow_succ]
      omega

/-- Every natural fits in its computed bit width. -/
theorem lt_two_pow_bitsNeeded (n : Nat) : n < 2 ^ bitsNeeded n :=
  lt_two_pow_bitsNeededAux n n le_rfl

/-- Every member of a list is at most its max fold. -/
theorem le_foldr_max : ∀ (l : List Nat) (x : Nat), x ∈ l → x ≤ l.foldr max 0 := by
  intro l
  induction l with
  | nil => intro x hx; simp at hx
  | cons a l ih =>
    intro x hx
    rcases List.mem_cons.mp hx with h | h
    · subst h
      simp only [List.foldr_cons]
      exact le_max_left _ _
    · have := ih x h
      simp only [List.foldr_cons]
      omega

/-! ## Lemmas: minima, maxima and the quantizer -/

/-- The running minimum is at most the seed. -/
theorem listMin_le_base : ∀ (vs : List ℚ) (v : ℚ), listMin v vs ≤ v := by
  intro vs
  induction vs with
  | nil => intro v; simp [listMin]
  | cons w vs ih =>
    intro v
    have h1 : listMin (min v w) vs ≤ min v w := ih (min v w)
    calc listMin v (w :: vs) = listMin (min v w) vs := by simp [listMin]
    _ ≤ min v w := h1
    _ ≤ v := min_le_left v w

/-- The running minimum is at most any later element. -/
theorem listMin_le_mem : ∀ (vs : List ℚ) (v x : ℚ), x ∈ vs → listMin v vs ≤ x := by
  intro vs
  induction vs with
  | nil => intro v x hx; simp at hx
  | cons w vs ih =>
    intro v x hx
    rcases List.mem_cons.mp hx with h | h
    · subst h
      calc listMin v (x :: vs) = listMin (min v x) vs := by simp [listMin]
      _ ≤ min v x := listMin_le_base vs (min v x)
      _ ≤ x := min_le_right v x
    · calc listMin v (w :: vs) = listMin (min v w) vs := by simp [listMin]
      _ ≤ x := ih (min v w) x h

/-- The minimum is at most every element of `v :: vs`. -/
theorem listMin_le (vs : List ℚ) (v x : ℚ) (hx : x ∈ v :: vs) :
    listMin v vs ≤ x := by
  rcases List.mem_cons.mp hx with h | h
  · subst h; exact listMin_le_base vs x
  · exact listMin_le_mem vs v x h

/-- The minimum is an element of `v :: vs`. -/
theorem listMin_mem : ∀ (vs : List ℚ) (v : ℚ), listMin v vs ∈ v :: vs := by
  intro vs
  induction vs with
  | nil => intro v; simp [listMin]
  | cons w vs ih =>
    intro v
    have h1 : listMin v (w :: vs) = listMin (min v w) vs := by simp [listMin]
    have h2 := ih (min v w)
    rcases List.mem_cons.mp h2 with h | h
    · rcases min_cases v w with ⟨he, _⟩ | ⟨he, _⟩
      · rw [h1, h, he]; simp
      · rw [h1, h, he]; simp
    · rw [h1]
      exact List.mem_cons_of_mem v (List.mem_cons_of_mem w h)

/-- Every element of `v :: vs` is at most the running maximum. -/
theorem le_listMax_base : ∀ (vs : List ℚ) (v : ℚ), v ≤ listMax v vs := by
  intro vs
  induction vs with
  | nil => intro v; simp [listMax]
  | cons w vs ih =>
    intro v
    have h1 : min v w ≤ listMax (max v w) vs := le_trans (min_le_left v w)
      (le_trans (le_max_left v w) (ih (max v w)))
    calc v ≤ max v w := le_max_left v w
    _ ≤ listMax (max v w) vs := ih (max v w)
    _ = listMax v (w :: vs) := by simp [listMax]

/-- Every element of the tail is at most the running maximum. -/
theorem le_listMax_mem : ∀ (vs : List ℚ) (v x : ℚ), x ∈ vs → x ≤ listMax v vs := by
  intro vs
  induction vs with
  | nil => intro v x hx; simp at hx
  | cons w vs ih =>
    intro v x hx
    rcases List.mem_cons.mp hx with h | h
    · subst h
      calc x ≤ max v x := le_max_right v x
      _ ≤ listMax (max v x) vs := le_listMax_base vs (max v x)
      _ = listMax v (x :: vs) := by simp [listMax]
    · calc x ≤ listMax (max v w) vs := ih (max v w) x h
      _ = listMax v (w :: vs) := by simp [listMax]

/-- Every element of `v :: vs` is at most the maximum. -/
theorem le_listMax (vs : List ℚ) (v x : ℚ) (hx : x ∈ v :: vs) :
    x ≤ listMax v vs := by
  rcases List.mem_cons.mp hx with h | h
  · subst h; exact le_listMax_base vs x
  · exact le_listMax_mem vs v x h

/-- When the minimum meets the maximum, the list is constant. -/
theorem const_of_min_eq_max (vs : List ℚ) (v : ℚ)
    (h : listMin v vs = listMax v vs) :
    ∀ x ∈ v :: vs, x = listMin v vs := by
  intro x hx
  have h1 := listMin_le vs v x hx
  have h2 := le_listMax vs v x hx
  rw [← h] at h2
  exact le_antisymm h2 h1

/-- Pointwise facts lift to `Forall₂` against a mapped list. -/
theorem forall2_self_map {α β : Type} (R : α → β → Prop) (f : α → β) :
    ∀ l : List α, (∀ x ∈ l, R x (f x)) → List.Forall₂ R l (l.map f) := by
  intro l
  induction l with
  | nil => intro _; simp
  | cons a l ih =>
    intro h
    simp only [List.map_cons, List.forall₂_cons]
    exact ⟨h a (List.mem_cons_self a l), ih (fun x hx => h x (List.mem_cons_of_mem a hx))⟩

/-- Rounding a nonnegative value gives a nonnegative integer. -/
theorem round_nonneg_of_nonneg (x : ℚ) (hx : 0 ≤ x) : 0 ≤ round x := by
  rw [round_eq]
  exact Int.floor_nonneg.mpr (by linarith)

/-- Integer-valued rationals subtract to integer-valued rationals. -/
theorem den_sub_eq_one (x y : ℚ) (hx : x.den = 1) (hy : y.den = 1) :
    (x - y).den = 1 := by
  have hx1 : (x.num : ℚ) = x := (Rat.den_eq_one_iff x).mp hx
  have hy1 : (y.num : ℚ) = y := (Rat.den_eq_one_iff y).mp hy
  have : x - y = ((x.num - y.num : ℤ) : ℚ) := by
    push_cast
    rw [hx1, hy1]
  rw [this, Rat.den_intCast]

/-- A successful quantization is characterized: positive scale, minimum
offset, nonnegative codes, and dequantized values within the tolerance. -/
theorem quantize_ok_bound (v : ℚ) (vs : List ℚ) (t : ℚ) (codes : List Int)
    (scale offset : ℚ) (ht : 0 ≤ t)
    (h : quantize (v :: vs) t = .ok (codes, scale, offset)) :
    0 < scale ∧ offset = listMin v vs ∧
    List.Forall₂ (fun (x : ℚ) (c : Int) => 0 ≤ c ∧ |x - (offset + (c : ℚ) * scale)| ≤ t)
      (v :: vs) codes := by
  by_cases ht0 : t = 0
  · subst ht0
    simp only [quantize, if_pos rfl] at h
    cases hall : (v :: vs).all (fun x => x.den = 1) with
    | false => rw [hall] at h; simp at h
    | true =>
      rw [hall] at h
      simp only [if_true, Except.ok.injEq, Prod.mk.injEq] at h
      obtain ⟨hcodes, hscale, hoffset⟩ := h
      subst hcodes
      subst hscale
      subst hoffset
      refine ⟨by norm_num, rfl, ?_⟩
      apply forall2_self_map
      intro x hx
      have hxden : x.den = 1 := by
        have := (List.all_eq_true.mp hall) x hx
        simpa using this
      have hoden : (listMin v vs).den = 1 := by
        have := (List.all_eq_true.mp hall) (listMin v vs) (listMin_mem vs v)
        simpa using this
      have hsden : (x - listMin v vs).den = 1 := den_sub_eq_one _ _ hxden hoden
      have hcast : ((x - listMin v vs).num : ℚ) = x - listMin v vs :=
        (Rat.den_eq_one_iff _).mp hsden
      constructor
      · rw [Rat.num_nonneg]
        have := listMin_le vs v x hx
        linarith
      · rw [hcast]
        have hz : x - (listMin v vs + (x - listMin v vs) * 1) = 0 := by ring
        rw [hz]
        simp
  · have htpos : 0 < t := lt_of_le_of_ne ht (Ne.symm ht0)
    have hsc : max (2 * t) epsilon = 2 * t := by
      rw [max_eq_left]
      simp only [epsilon]
      linarith
    simp only [quantize, if_neg ht0, hsc, Except.ok.injEq, Prod.mk.injEq] at h
    obtain ⟨hcodes, hscale, hoffset⟩ := h
    subst hcodes
    subst hscale
    subst hoffset
    have hspos : (0 : ℚ) < 2 * t := by linarith
    refine ⟨hspos, rfl, ?_⟩
    apply forall2_self_map
    intro x hx
    have hxo : 0 ≤ x - listMin v vs := by
      have := listMin_le vs v x hx
      linarith
    set y := (x - listMin v vs) / (2 * t) with hy
    have hynn : 0 ≤ y := div_nonneg hxo (by linarith)
    constructor
    · exact round_nonneg_of_nonneg y hynn
    · have hne : (2 * t) ≠ 0 := ne_of_gt hspos
      have hxy : x - listMin v vs = y * (2 * t) := (div_mul_cancel₀ _ hne).symm
      have hdist : x - (listMin v vs + (round y : ℚ) * (2 * t))
          = (y - (round y : ℚ)) * (2 * t) := by
        rw [sub_mul, ← hxy]
        ring
      rw [hdist, abs_mul, abs_of_pos hspos]
      have habs : |y - (round y : ℚ)| ≤ 1 / 2 := abs_sub_round y
      calc |y - (round y : ℚ)| * (2 * t) ≤ (1 / 2) * (2 * t) := by
            apply mul_le_mul_of_nonneg_right habs
            linarith
      _ = t := by ring

/-! ## Lemmas: gather, scatter and tiles -/

/-- Gathering through a mask yields one value per valid pixel. -/
theorem gatherValid_length : ∀ (mask : List Bool) (vals : List ℚ),
    mask.length ≤ vals.length → (gatherValid mask vals).length = countTrue mask := by
  intro mask
  induction mask with
  | nil => intro vals _; simp [gatherValid, countTrue]
  | cons b ms ih =>
    intro vals hlen
    cases vals with
    | nil => simp at hlen
    | cons v vs =>
      cases b with
      | true =>
        simp only [gatherValid, countTrue, List.length_cons]
        rw [ih vs (by simpa using hlen)]
      | false =>
        simp only [gatherValid, countTrue]
        exact ih vs (by simpa using hlen)

/-- Scattering fills exactly one sample per mask position. -/
theorem scatterValid_length : ∀ (mask : List Bool) (vs : List ℚ) (nd : ℚ),
    (scatterValid nd mask vs).length = mask.length := by
  intro mask
  induction mask with
  | nil => intro vs nd; simp [scatterValid]
  | cons b ms ih =>
    intro vs nd
    cases b with
    | true =>
      cases vs with
      | nil => simp [scatterValid, ih]
      | cons v vs => simp [scatterValid, ih]
    | false => simp [scatterValid, ih]

/-- An all-invalid mask gathers nothing. -/
theorem gatherValid_allFalse : ∀ (mask : List Bool) (vals : List ℚ),
    (∀ b ∈ mask, b = false) → gatherValid mask vals = [] := by
  intro mask
  induction mask with
  | nil => intro vals _; simp [gatherValid]
  | cons b ms ih =>
    intro vals hall
    have hb : b = false := hall b (List.mem_cons_self b ms)
    subst hb
    cases vals with
    | nil => simp [gatherValid]
    | cons v vs =>
      simp only [gatherValid]
      exact ih vs (fun x hx => hall x (List.mem_cons_of_mem false hx))

/-- An all-invalid mask has no valid pixels. -/
theorem countTrue_allFalse : ∀ (mask : List Bool),
    (∀ b ∈ mask, b = false) → countTrue mask = 0 := by
  intro mask
  induction mask with
  | nil => intro _; simp [countTrue]
  | cons b ms ih =>
    intro hall
    have hb : b = false := hall b (List.mem_cons_self b ms)
    subst hb
    simp only [countTrue]
    exact ih (fun x hx => hall x (List.mem_cons_of_mem false hx))

/-- Scattering through an all-invalid mask yields only noData values. -/
theorem scatterValid_allFalse : ∀ (mask : List Bool) (vs : List ℚ) (nd : ℚ),
    (∀ b ∈ mask, b = false) →
    scatterValid nd mask vs = List.replicate mask.length nd := by
  intro mask
  induction mask with
  | nil => intro vs nd _; simp [scatterValid]
  | cons b ms ih =>
    intro vs nd hall
    have hb : b = false := hall b (List.mem_cons_self b ms)
    subst hb
    simp only [scatterValid, List.length_cons, List.replicate_succ]
    rw [ih vs nd (fun x hx => hall x (List.mem_cons_of_mem false hx))]

/-- Pointwise facts lift to `Forall₂` against a replicated value. -/
theorem forall2_replicate {α β : Type} (R : α → β → Prop) (a : β) :
    ∀ l : List α, (∀ x ∈ l, R x a) →
      List.Forall₂ R l (List.replicate l.length a) := by
  intro l
  induction l with
  | nil => intro _; simp
  | cons x l ih =>
    intro h
    simp only [List.length_cons, List.replicate_succ, List.forall₂_cons]
    exact ⟨h x (List.mem_cons_self x l), ih (fun y hy => h y (List.mem_cons_of_mem x hy))⟩

/-- Scattering approximate valid values through the mask realizes the
per-pixel reconstruction contract. -/
theorem scatter_spec (nd t : ℚ) : ∀ (mask : List Bool) (vals out : List ℚ),
    vals.length = mask.length →
    List.Forall₂ (fun (x o : ℚ) => |o - x| ≤ t) (gatherValid mask vals) out →
    List.Forall₂ (pixRel nd t) (vals.zip mask) (scatterValid nd mask out) := by
  intro mask
  induction mask with
  | nil =>
    intro vals out hlen _
    have : vals = [] := List.length_eq_zero.mp (by simpa using hlen)
    subst this
    simp [scatterValid]
  | cons b ms ih =>
    intro vals out hlen happrox
    cases vals with
    | nil => simp at hlen
    | cons v vs =>
      have hlen2 : vs.length = ms.length := by simpa using hlen
      cases b with
      | true =>
        rw [show gatherValid (true :: ms) (v :: vs) = v :: gatherValid ms vs from rfl]
          at happrox
        cases out with
        | nil => exact absurd (List.Forall₂.length_eq happrox) (by simp)
        | cons o os =>
          rw [List.forall₂_cons] at happrox
          obtain ⟨ho, hos⟩ := happrox
          rw [show scatterValid nd (true :: ms) (o :: os) = o :: scatterValid nd ms os
            from rfl]
          rw [show (v :: vs).zip (true :: ms) = (v, true) :: vs.zip ms from rfl]
          rw [List.forall₂_cons]
          refine ⟨⟨fun _ => ho, fun hf => by simp at hf⟩, ih vs os hlen2 hos⟩
      | false =>
        rw [show gatherValid (false :: ms) (v :: vs) = gatherValid ms vs from rfl]
          at happrox
        rw [show scatterValid nd (false :: ms) out = nd :: scatterValid nd ms out
          from rfl]
        rw [show (v :: vs).zip (false :: ms) = (v, false) :: vs.zip ms from rfl]
        rw [List.forall₂_cons]
        refine ⟨⟨fun ht => by simp at ht, fun _ => rfl⟩, ih vs out hlen2 happrox⟩

/-- Per-tile round trip: a tile encoded from valid values decodes (before the
same tail) to approximations of those values within the tolerance. -/
theorem tileEncode_decode (t : ℚ) (vals : List ℚ) (mask : List Bool)
    (ht : 0 ≤ t) (hlen : mask.length ≤ vals.length) (tb : List Nat)
    (henc : tileEncode t vals mask = .ok tb) (rest : List Nat) :
    ∃ out, tileDecode (countTrue mask) (tb ++ rest) = .ok (out, rest) ∧
      List.Forall₂ (fun (x o : ℚ) => |o - x| ≤ t) (gatherValid mask vals) out := by
  cases hg : gatherValid mask vals with
  | nil =>
    rw [tileEncode, hg] at henc
    simp only [Except.ok.injEq] at henc
    subst henc
    refine ⟨[], ?_, List.Forall₂.nil⟩
    simp [tileDecode, tileMarkerEmpty]
  | cons v vs =>
    rw [tileEncode, hg] at henc
    simp only at henc
    by_cases hc : listMin v vs = listMax v vs
    · rw [if_pos hc] at henc
      simp only [Except.ok.injEq] at henc
      subst henc
      have hcount : countTrue mask = (v :: vs).length := by
        rw [← gatherValid_length mask vals hlen, hg]
      refine ⟨List.replicate (countTrue mask) (listMin v vs), ?_, ?_⟩
      · show tileDecode (countTrue mask)
          (tileMarkerConst :: ratEncode (listMin v vs) ++ rest) = _
        simp only [tileDecode, tileMarkerEmpty, tileMarkerConst, List.cons_append]
        norm_num
        rw [ratDecode_encode]
      · rw [hcount]
        apply forall2_replicate
        intro x hx
        rw [const_of_min_eq_max vs v hc x hx]
        simpa using ht
    · rw [if_neg hc] at henc
      cases hq : quantize (v :: vs) t with
      | error e => rw [hq] at henc; simp at henc
      | ok res =>
        obtain ⟨codes, scale, offset⟩ := res
        rw [hq] at henc
        simp only [Except.ok.injEq] at henc
        subst henc
        obtain ⟨hspos, hoff, hforall⟩ :=
          quantize_ok_bound v vs t codes scale offset ht hq
        have hclen : codes.length = (v :: vs).length :=
          (List.Forall₂.length_eq hforall).symm
        have hcount : countTrue mask = (v :: vs).length := by
          rw [← gatherValid_length mask vals hlen, hg]
        set ncodes := codes.map Int.toNat with hnc
        set maxCode := ncodes.foldr max 0 with hmx
        set w := max 1 (bitsNeeded maxCode) with hw
        have hnlen : ncodes.length = (v :: vs).length := by
          rw [hnc, List.length_map, hclen]
        have hcodebound : ∀ c ∈ ncodes, c < 2 ^ w := by
          intro c hcmem
          have h1 : c ≤ maxCode := le_foldr_max ncodes c hcmem
          have h2 : maxCode < 2 ^ bitsNeeded maxCode := lt_two_pow_bitsNeeded maxCode
          have h3 : (2 : Nat) ^ bitsNeeded maxCode ≤ 2 ^ w := by
            apply Nat.pow_le_pow_right (by norm_num)
            rw [hw]
            exact le_max_right 1 (bitsNeeded maxCode)
          omega
        have hplen : (packCodes w ncodes).length = (countTrue mask * w + 7) / 8 := by
          rw [packCodes_length, hnlen, hcount]
        refine ⟨ncodes.map (fun (c : Nat) => offset + (c : ℚ) * scale), ?_, ?_⟩
        · have hnb : ¬ ((packCodes w ncodes ++ rest).length
              < (countTrue mask * w + 7) / 8) := by
            rw [List.length_append, hplen]
            omega
          simp only [tileDecode, tileMarkerEmpty, tileMarkerConst, tileMarkerPacked,
            List.cons_append, List.append_assoc, ratDecode_encode, varintDecode_encode]
          rw [if_neg (show ¬ ((2 : Nat) = 0) by norm_num),
            if_neg (show ¬ ((2 : Nat) = 1) by norm_num)]
          rw [if_pos trivial]
          rw [if_neg hnb]
          rw [List.take_left' hplen, List.drop_left' hplen]
          rw [show countTrue mask = ncodes.length by rw [hnlen, hcount]]
          rw [unpack_pack w ncodes hcodebound]
        · rw [hnc, List.map_map]
          rw [List.forall₂_map_right_iff]
          apply List.Forall₂.imp ?_ hforall
          intro x c hrc
          obtain ⟨hcnn, hbound⟩ := hrc
          have hcast : ((c.toNat : ℤ) : ℚ) = (c : ℚ) := by
            rw [Int.toNat_of_nonneg hcnn]
          show |(offset + ((c.toNat : Nat) : ℚ) * scale) - x| ≤ t
          rw [abs_sub_comm]
          have : ((c.toNat : Nat) : ℚ) = ((c.toNat : ℤ) : ℚ) := by push_cast; ring
          rw [this, hcast]
          exact hbound

/-! ## Lemmas: bands -/

/-- `Forall₂` is preserved by appending related lists. -/
theorem forall2_append {α β : Type} {R : α → β → Prop} :
    ∀ {l₁ l₂ : List α} {u₁ u₂ : List β},
      List.Forall₂ R l₁ u₁ → List.Forall₂ R l₂ u₂ →
      List.Forall₂ R (l₁ ++ l₂) (u₁ ++ u₂) := by
  intro l₁
  induction l₁ with
  | nil =>
    intro l₂ u₁ u₂ h1 h2
    cases h1
    simpa using h2
  | cons a l ih =>
    intro l₂ u₁ u₂ h1 h2
    cases h1 with
    | cons hab htail =>
      simp only [List.cons_append, List.forall₂_cons]
      exact ⟨hab, ih htail h2⟩

/-- A successfully decoded band has one sample per mask position. -/
theorem bandDecodeAux_ok_length :
    ∀ (fuel : Nat) (mask : List Bool) (bytes : List Nat) (nd : ℚ)
      (out : List ℚ) (rest : List Nat),
      bandDecodeAux nd fuel mask bytes = .ok (out, rest) →
      out.length = mask.length := by
  intro fuel
  induction fuel with
  | zero =>
    intro mask bytes nd out rest h
    cases mask with
    | nil =>
      simp only [bandDecodeAux, Except.ok.injEq, Prod.mk.injEq] at h
      rw [← h.1]
      simp
    | cons b ms => simp [bandDecodeAux] at h
  | succ fuel ih =>
    intro mask bytes nd out rest h
    cases mask with
    | nil =>
      simp only [bandDecodeAux, Except.ok.injEq, Prod.mk.injEq] at h
      rw [← h.1]
      simp
    | cons b ms =>
      rw [bandDecodeAux] at h
      cases htd : tileDecode (countTrue ((b :: ms).take tilePix)) bytes with
      | error e => rw [htd] at h; simp at h
      | ok x =>
        obtain ⟨tvals, rest1⟩ := x
        rw [htd] at h
        simp only at h
        cases hbd : bandDecodeAux nd fuel ((b :: ms).drop tilePix) rest1 with
        | error e => rw [hbd] at h; simp at h
        | ok y =>
          obtain ⟨more, rest2⟩ := y
          rw [hbd] at h
          simp only [Except.ok.injEq, Prod.mk.injEq] at h
          have hmore := ih _ _ _ _ _ hbd
          rw [← h.1]
          simp only [List.length_append, scatterValid_length, hmore,
            List.length_take, List.length_drop]
          have hpos : 0 < tilePix := by norm_num [tilePix, tileSize]
          simp only [List.length_cons]
          omega

/-- Band round trip: an encoded band decodes (before the same tail) to the
per-pixel reconstruction of the original samples. -/
theorem bandEncodeAux_decode (nd t : ℚ) (ht : 0 ≤ t) :
    ∀ (fuel : Nat) (vals : List ℚ) (mask : List Bool) (bb : List Nat)
      (rest : List Nat) (fuel2 : Nat),
      vals.length ≤ fuel → mask.length ≤ fuel2 → vals.length = mask.length →
      bandEncodeAux t fuel vals mask = .ok bb →
      ∃ out, bandDecodeAux nd fuel2 mask (bb ++ rest) = .ok (out, rest) ∧
        List.Forall₂ (pixRel nd t) (vals.zip mask) out := by
  intro fuel
  induction fuel with
  | zero =>
    intro vals mask bb rest fuel2 hf hf2 hlen henc
    have hv : vals = [] := List.length_eq_zero.mp (by omega)
    subst hv
    have hm : mask = [] := List.length_eq_zero.mp (by simpa using hlen.symm)
    subst hm
    simp only [bandEncodeAux, Except.ok.injEq] at henc
    subst henc
    refine ⟨[], ?_, by simp⟩
    cases fuel2 <;> simp [bandDecodeAux]
  | succ fuel ih =>
    intro vals mask bb rest fuel2 hf hf2 hlen henc
    cases vals with
    | nil =>
      have hm : mask = [] := List.length_eq_zero.mp (by simpa using hlen.symm)
      subst hm
      simp only [bandEncodeAux, Except.ok.injEq] at henc
      subst henc
      refine ⟨[], ?_, by simp⟩
      cases fuel2 <;> simp [bandDecodeAux]
    | cons v vs =>
      rw [bandEncodeAux] at henc
      cases hte : tileEncode t ((v :: vs).take tilePix) (mask.take tilePix) with
      | error e => rw [hte] at henc; simp at henc
      | ok tb =>
        rw [hte] at henc
        simp only at henc
        cases hbe : bandEncodeAux t fuel ((v :: vs).drop tilePix) (mask.drop tilePix) with
        | error e => rw [hbe] at henc; simp at henc
        | ok rb =>
          rw [hbe] at henc
          simp only [Except.ok.injEq] at henc
          subst henc
          obtain ⟨m0, ms, rfl⟩ : ∃ m0 ms, mask = m0 :: ms := by
            cases mask with
            | nil => simp at hlen
            | cons m0 ms => exact ⟨m0, ms, rfl⟩
          obtain ⟨f2, rfl⟩ : ∃ f2, fuel2 = f2 + 1 := by
            cases fuel2 with
            | zero => simp at hf2
            | succ f2 => exact ⟨f2, rfl⟩
          have h64 : tilePix = 64 := by norm_num [tilePix, tileSize]
          have htlen : ((m0 :: ms).take tilePix).length
              ≤ ((v :: vs).take tilePix).length := by
            simp only [List.length_take]
            omega
          obtain ⟨out1, hdec1, happrox⟩ := tileEncode_decode t
            ((v :: vs).take tilePix) ((m0 :: ms).take tilePix) ht htlen tb hte
            (rb ++ rest)
          have hlent : ((v :: vs).take tilePix).length
              = ((m0 :: ms).take tilePix).length := by
            simp only [List.length_take]
            omega
          have hsc := scatter_spec nd t ((m0 :: ms).take tilePix)
            ((v :: vs).take tilePix) out1 hlent happrox
          obtain ⟨out2, hdec2, hf2r⟩ := ih ((v :: vs).drop tilePix)
            ((m0 :: ms).drop tilePix) rb rest f2
            (by simp only [List.length_drop, List.length_cons, h64] at hf ⊢; omega)
            (by simp only [List.length_drop, List.length_cons, h64] at hf2 ⊢; omega)
            (by simp only [List.length_drop]; omega)
            hbe
          refine ⟨scatterValid nd ((m0 :: ms).take tilePix) out1 ++ out2, ?_, ?_⟩
          · rw [bandDecodeAux, List.append_assoc, hdec1]
            simp only
            rw [hdec2]
          · have hzip : (v :: vs).zip (m0 :: ms)
                = ((v :: vs).take tilePix).zip ((m0 :: ms).take tilePix)
                  ++ ((v :: vs).drop tilePix).zip ((m0 :: ms).drop tilePix) := by
              conv_lhs => rw [← List.take_append_drop tilePix (v :: vs),
                ← List.take_append_drop tilePix (m0 :: ms)]
              rw [List.zip_append hlent]
            rw [hzip]
            exact forall2_append hsc hf2r

/-- Band round trip at the standard fuel. -/
theorem bandEncode_decode (nd t : ℚ) (ht : 0 ≤ t) (vals : List ℚ)
    (mask : List Bool) (bb : List Nat) (rest : List Nat)
    (hlen : vals.length = mask.length)
    (henc : bandEncode t vals mask = .ok bb) :
    ∃ out, bandDecode nd mask (bb ++ rest) = .ok (out, rest) ∧
      List.Forall₂ (pixRel nd t) (vals.zip mask) out :=
  bandEncodeAux_decode nd t ht vals.length vals mask bb rest mask.length
    le_rfl le_rfl hlen henc

/-- Bands round trip: the concatenated per-band encodings decode (before the
same tail) to per-band reconstructions. -/
theorem bandsEncode_decode (nd t : ℚ) (ht : 0 ≤ t) :
    ∀ (bands : List (List ℚ)) (m : List Bool) (bb : List Nat) (rest : List Nat),
      (∀ band ∈ bands, band.length = m.length) →
      bandsEncode t m bands = .ok bb →
      ∃ parts, bandsDecode nd bands.length m (bb ++ rest)
          = .ok (parts.flatten, rest) ∧
        List.Forall₂ (fun (band part : List ℚ) =>
          List.Forall₂ (pixRel nd t) (band.zip m) part) bands parts := by
  intro bands
  induction bands with
  | nil =>
    intro m bb rest _ henc
    simp only [bandsEncode, Except.ok.injEq] at henc
    subst henc
    exact ⟨[], by simp [bandsDecode], List.Forall₂.nil⟩
  | cons band bs ih =>
    intro m bb rest hwf henc
    rw [bandsEncode] at henc
    cases hbe : bandEncode t band m with
    | error e => rw [hbe] at henc; simp at henc
    | ok x =>
      rw [hbe] at henc
      simp only at henc
      cases hbs : bandsEncode t m bs with
      | error e => rw [hbs] at henc; simp at henc
      | ok y =>
        rw [hbs] at henc
        simp only [Except.ok.injEq] at henc
        subst henc
        obtain ⟨out, hdec, hfr⟩ := bandEncode_decode nd t ht band m x (y ++ rest)
          (hwf band (List.mem_cons_self band bs)) hbe
        obtain ⟨parts, hdecs, hfrs⟩ := ih m y rest
          (fun b hb => hwf b (List.mem_cons_of_mem band hb)) hbs
        refine ⟨out :: parts, ?_, List.forall₂_cons.mpr ⟨hfr, hfrs⟩⟩
        rw [List.length_cons, bandsDecode, List.append_assoc, hdec]
        simp only
        rw [hdecs]
        simp

/-- A successful multi-band decode yields `bandCount * maskLength` samples. -/
theorem bandsDecode_ok_length :
    ∀ (n : Nat) (m : List Bool) (bytes : List Nat) (nd : ℚ)
      (out : List ℚ) (rest : List Nat),
      bandsDecode nd n m bytes = .ok (out, rest) →
      out.length = n * m.length := by
  intro n
  induction n with
  | zero =>
    intro m bytes nd out rest h
    simp only [bandsDecode, Except.ok.injEq, Prod.mk.injEq] at h
    rw [← h.1]
    simp
  | succ n ih =>
    intro m bytes nd out rest h
    rw [bandsDecode] at h
    cases hbd : bandDecode nd m bytes with
    | error e => rw [hbd] at h; simp at h
    | ok x =>
      obtain ⟨band, rest1⟩ := x
      rw [hbd] at h
      simp only at h
      cases hbs : bandsDecode nd n m rest1 with
      | error e => rw [hbs] at h; simp at h
      | ok y =>
        obtain ⟨more, rest2⟩ := y
        rw [hbs] at h
        simp only [Except.ok.injEq, Prod.mk.injEq] at h
        have h1 : band.length = m.length := bandDecodeAux_ok_length _ _ _ _ _ _ hbd
        have h2 := ih _ _ _ _ _ hbs
        rw [← h.1]
        simp only [List.length_append, h1, h2]
        ring

/-! ## Lemmas: header and top-level codec -/

/-- `readVarint` inverts `varintEncode`, leaving the tail. -/
theorem readVarint_encode (n : Nat) (rest : List Nat) :
    readVarint (varintEncode n ++ rest) = .ok (n, rest) := by
  simp [readVarint, varintDecode_encode]

/-- `readRat` inverts `ratEncode`, leaving the tail. -/
theorem readRat_encode (q : ℚ) (rest : List Nat) :
    readRat (ratEncode q ++ rest) = .ok (q, rest) := by
  simp [readRat, ratDecode_encode]

/-- Parsing an encoded header returns the header and the unconsumed tail. -/
theorem parseHeader_encode (h : BlobHeader) (rest : List Nat) :
    parseHeader (headerEncode h ++ rest) = .ok (h, rest) := by
  obtain ⟨fv, w, ht, bc, dt, gmin, gmax, vpc, mp, nd⟩ := h
  simp only [headerEncode, List.cons_append, List.append_assoc, List.nil_append]
  rw [parseHeader]
  rw [if_pos ⟨rfl, rfl, rfl⟩]
  simp only [readVarint_encode, readRat_encode, Bind.bind, Except.bind]
  cases mp <;> simp

/-- Facts about the right list of a `Forall₂` transfer from the relation. -/
theorem forall2_mem_right {α β : Type} {R : α → β → Prop} {P : β → Prop}
    (hP : ∀ a b, R a b → P b) :
    ∀ {l : List α} {u : List β}, List.Forall₂ R l u → ∀ b ∈ u, P b := by
  intro l
  induction l with
  | nil =>
    intro u h b hb
    cases h
    simp at hb
  | cons a l ih =>
    intro u h b hb
    cases h with
    | cons hab htail =>
      rcases List.mem_cons.mp hb with h1 | h1
      · subst h1; exact hP _ _ hab
      · exact ih htail b h1

/-- The effective mask has one bit per pixel. -/
theorem effMask_length (r : Raster) (mask? : Option (List Bool))
    (hm : ∀ m ∈ mask?, m.length = r.width * r.height) :
    (effMask r mask?).length = r.width * r.height := by
  cases mask? with
  | none => simp [effMask]
  | some m =>
    simp only [effMask]
    exact hm m rfl

/-- Core round trip: decoding an encoded blob succeeds and yields per-band
pixel reconstructions. -/
theorem decode_encode_core (r : Raster) (mask? : Option (List Bool)) (nd t : ℚ)
    (blob : List Nat) (hwf : RasterWF r) (hm : MaskWF r mask?) (ht : 0 ≤ t)
    (henc : encode r mask? nd t = .ok blob) :
    ∃ parts, decode blob = .ok parts.flatten ∧
      List.Forall₂ (fun (band part : List ℚ) =>
        List.Forall₂ (pixRel nd t) (band.zip (effMask r mask?)) part)
        r.bands parts := by
  simp only [encode] at henc
  cases hbe : bandsEncode t (effMask r mask?) r.bands with
  | error e => rw [hbe] at henc; simp at henc
  | ok bb =>
    rw [hbe] at henc
    simp only [Except.ok.injEq] at henc
    have hmlen : (effMask r mask?).length = r.width * r.height :=
      effMask_length r mask? hm
    have hbandlen : ∀ band ∈ r.bands, band.length = (effMask r mask?).length := by
      intro band hband
      rw [hwf band hband, hmlen]
    obtain ⟨parts, hdec, hfr⟩ := bandsEncode_decode nd t ht r.bands
      (effMask r mask?) bb [] hbandlen hbe
    rw [List.append_nil] at hdec
    refine ⟨parts, ?_, hfr⟩
    rw [← henc, decode, List.append_assoc, parseHeader_encode]
    simp only
    cases mask? with
    | none =>
      simp only [Option.isSome_none, Bool.false_eq_true, if_false, effMask,
        List.nil_append] at hdec ⊢
      simp [hdec]
    | some m =>
      have hmlen2 : m.length = r.width * r.height := hm m rfl
      simp only [Option.isSome_some, if_true, effMask] at hdec ⊢
      rw [← hmlen2, maskDecodeStream_encode m bb]
      simp [hdec]

/-- `Forall₂` gives pointwise facts at in-bounds positions. -/
theorem forall2_getD {α β : Type} {R : α → β → Prop} (d₁ : α) (d₂ : β) :
    ∀ {l₁ : List α} {l₂ : List β}, List.Forall₂ R l₁ l₂ →
      ∀ i, i < l₁.length → R (l₁.getD i d₁) (l₂.getD i d₂) := by
  intro l₁
  induction l₁ with
  | nil => intro l₂ h i hi; simp at hi
  | cons a l ih =>
    intro l₂ h i hi
    cases h with
    | cons hab htail =>
      cases i with
      | zero => simpa using hab
      | succ i =>
        simp only [List.getD_cons_succ]
        exact ih htail i (by simpa using hi)

/-- Zipping commutes with in-bounds indexing. -/
theorem zip_getD {α β : Type} (dx : α) (dy : β) :
    ∀ (xs : List α) (ys : List β) (i : Nat), i < xs.length → i < ys.length →
      (xs.zip ys).getD i (dx, dy) = (xs.getD i dx, ys.getD i dy) := by
  intro xs
  induction xs with
  | nil => intro ys i hi _; simp at hi
  | cons x xs ih =>
    intro ys i hx hy
    cases ys with
    | nil => simp at hy
    | cons y ys =>
      cases i with
      | zero => simp
      | succ i =>
        simp only [List.zip_cons_cons, List.getD_cons_succ]
        exact ih ys i (by simpa using hx) (by simpa using hy)

/-- Indexing a flattened list of equal-length parts. -/
theorem flatten_getD {α : Type} (L : Nat) (d : α) :
    ∀ (parts : List (List α)) (b i : Nat),
      (∀ p ∈ parts, p.length = L) → b < parts.length → i < L →
      parts.flatten.getD (b * L + i) d = (parts.getD b []).getD i d := by
  intro parts
  induction parts with
  | nil => intro b i _ hb _; simp at hb
  | cons p ps ih =>
    intro b i hlen hb hi
    have hp : p.length = L := hlen p (List.mem_cons_self p ps)
    cases b with
    | zero =>
      rw [show (p :: ps).flatten = p ++ ps.flatten from rfl,
        show 0 * L + i = i by ring,
        List.getD_append p ps.flatten d i (by rw [hp]; exact hi)]
      simp
    | succ b =>
      have harith : (b + 1) * L + i = p.length + (b * L + i) := by rw [hp]; ring
      rw [show (p :: ps).flatten = p ++ ps.flatten from rfl, harith,
        List.getD_append_right p ps.flatten d _ (by omega)]
      rw [show p.length + (b * L + i) - p.length = b * L + i by omega]
      rw [show (p :: ps).getD (b + 1) [] = ps.getD b [] from rfl]
      exact ih b i (fun q hq => hlen q (List.mem_cons_of_mem p hq))
        (by simpa using hb) hi

/-- The flattening of equal-length parts has `count * L` entries. -/
theorem flatten_length_const {α : Type} (L : Nat) :
    ∀ (parts : List (List α)), (∀ p ∈ parts, p.length = L) →
      parts.flatten.length = parts.length * L := by
  intro parts
  induction parts with
  | nil => intro _; simp
  | cons p ps ih =>
    intro hlen
    have hp : p.length = L := hlen p (List.mem_cons_self p ps)
    rw [show (p :: ps).flatten = p ++ ps.flatten from rfl]
    simp only [List.length_append, hp, List.length_cons,
      ih (fun q hq => hlen q (List.mem_cons_of_mem p hq))]
    ring

/-- A fully valid replicated mask counts every pixel. -/
theorem countTrue_replicate_true : ∀ (n : Nat),
    countTrue (List.replicate n true) = n := by
  intro n
  induction n with
  | zero => simp [countTrue]
  | succ n ih => simp [List.replicate_succ, countTrue, ih]

/-- Metadata of an encoded blob: dimensions and valid pixel count are taken
from the raster and mask whenever the dimensions are positive. -/
theorem getInfo_encode (r : Raster) (mask? : Option (List Bool)) (nd t : ℚ)
    (blob : List Nat) (hw : 0 < r.width) (hh : 0 < r.height)
    (henc : encode r mask? nd t = .ok blob) :
    ∃ info, getInfo blob = .ok info ∧ info.width = r.width ∧
      info.height = r.height ∧ info.bandCount = r.bands.length ∧
      info.validPixelCount = countTrue (effMask r mask?) ∧
      info.noDataValue = nd := by
  simp only [encode] at henc
  cases hbe : bandsEncode t (effMask r mask?) r.bands with
  | error e => rw [hbe] at henc; simp at henc
  | ok bb =>
    rw [hbe] at henc
    simp only [Except.ok.injEq] at henc
    refine ⟨⟨r.width, r.height, r.bands.length, 7,
      countTrue (effMask r mask?),
      (match r.bands.flatMap (fun b => gatherValid (effMask r mask?) b) with
        | [] => 0 | v :: vs => listMin v vs),
      (match r.bands.flatMap (fun b => gatherValid (effMask r mask?) b) with
        | [] => 0 | v :: vs => listMax v vs), nd⟩,
      ?_, rfl, rfl, rfl, rfl, rfl⟩
    rw [← henc, getInfo, List.append_assoc, parseHeader_encode]
    simp only
    rw [if_neg (by simp), if_neg (by omega)]

/-- Facts about the right list of a `Forall₂` that draw on facts about the
matching left elements. -/
theorem forall2_right_of_left {α β : Type} {R : α → β → Prop} {P : α → Prop}
    {Q : β → Prop} (hPQ : ∀ a b, P a → R a b → Q b) :
    ∀ {l : List α} {u : List β}, (∀ a ∈ l, P a) → List.Forall₂ R l u →
      ∀ b ∈ u, Q b := by
  intro l
  induction l with
  | nil =>
    intro u _ h b hb
    cases h
    simp at hb
  | cons a l ih =>
    intro u hP h b hb
    cases h with
    | cons hab htail =>
      rcases List.mem_cons.mp hb with h1 | h1
      · subst h1
        exact hPQ _ _ (hP a (List.mem_cons_self a l)) hab
      · exact ih (fun x hx => hP x (List.mem_cons_of_mem a hx)) htail b h1

/-- Shape of a successful decode: the header parses and the output holds
exactly `width * height * bandCount` samples. -/
theorem decode_ok_shape (blob : List Nat) (out : List ℚ)
    (h : decode blob = .ok out) :
    ∃ hdr r1, parseHeader blob = .ok (hdr, r1) ∧
      out.length = hdr.width * hdr.height * hdr.bandCount := by
  rw [decode] at h
  cases hp : parseHeader blob with
  | error e => rw [hp] at h; simp at h
  | ok x =>
    obtain ⟨hdr, r1⟩ := x
    rw [hp] at h
    simp only at h
    refine ⟨hdr, r1, rfl, ?_⟩
    by_cases hmp : hdr.maskPresent = true
    · rw [if_pos hmp] at h
      cases hms : maskDecodeStream (hdr.width * hdr.height) r1 with
      | error e => rw [hms] at h; simp at h
      | ok y =>
        obtain ⟨m, r2⟩ := y
        rw [hms] at h
        simp only at h
        cases hbs : bandsDecode hdr.noDataValue hdr.bandCount m r2 with
        | error e => rw [hbs] at h; simp at h
        | ok z =>
          obtain ⟨out2, rest2⟩ := z
          rw [hbs] at h
          simp only [Except.ok.injEq] at h
          have h1 := bandsDecode_ok_length _ _ _ _ _ _ hbs
          have h2 := maskDecodeStream_ok_length _ _ _ _ hms
          rw [← h, h1, h2]
          ring
    · rw [if_neg hmp] at h
      simp only at h
      cases hbs : bandsDecode hdr.noDataValue hdr.bandCount
          (List.replicate (hdr.width * hdr.height) true) r1 with
      | error e => rw [hbs] at h; simp at h
      | ok z =>
        obtain ⟨out2, rest2⟩ := z
        rw [hbs] at h
        simp only [Except.ok.injEq] at h
        have h1 := bandsDecode_ok_length _ _ _ _ _ _ hbs
        rw [← h, h1, List.length_replicate]
        ring

/-! ## Claim theorems -/

/-- C1: for every raster, validity mask and tolerance `t ≥ 0` at which the
raster is representable losslessly (that is, for which `encode` succeeds),
decoding the blob produced by `encode` yields a raster in which every valid
pixel differs from the original by at most `t` and every invalid pixel
equals the noData value. -/
theorem c1_encode_decode_roundtrip (r : Raster) (mask? : Option (List Bool))
    (nd t : ℚ) (blob : List Nat) (hwf : RasterWF r) (hm : MaskWF r mask?)
    (ht : 0 ≤ t) (henc : encode r mask? nd t = .ok blob) :
    ∃ out, decode blob = .ok out ∧
      out.length = r.bands.length * (r.width * r.height) ∧
      ∀ b, b < r.bands.length → ∀ i, i < r.width * r.height →
        ((effMask r mask?).getD i false = true →
          |out.getD (b * (r.width * r.height) + i) 0
            - (r.bands.getD b []).getD i 0| ≤ t) ∧
        ((effMask r mask?).getD i false = false →
          out.getD (b * (r.width * r.height) + i) 0 = nd) := by
  obtain ⟨parts, hdec, hfr⟩ := decode_encode_core r mask? nd t blob hwf hm ht henc
  have hmlen : (effMask r mask?).length = r.width * r.height :=
    effMask_length r mask? hm
  have hplen : ∀ p ∈ parts, p.length = r.width * r.height := by
    refine forall2_right_of_left ?_ (fun band hb => hwf band hb) hfr
    intro band part hP hbp
    have h1 := List.Forall₂.length_eq hbp
    rw [List.length_zip, hP, hmlen, min_self] at h1
    exact h1.symm
  have hparts_len : parts.length = r.bands.length :=
    (List.Forall₂.length_eq hfr).symm
  refine ⟨parts.flatten, hdec, ?_, ?_⟩
  · rw [flatten_length_const (r.width * r.height) parts hplen, hparts_len]
  · intro b hb i hi
    have hband_mem : r.bands.getD b [] ∈ r.bands := by
      rw [List.getD_eq_getElem r.bands [] hb]
      exact List.getElem_mem hb
    have hband : (r.bands.getD b []).length = r.width * r.height :=
      hwf _ hband_mem
    have hpair := forall2_getD ([] : List ℚ) ([] : List ℚ) hfr b hb
    have hziplen : ((r.bands.getD b []).zip (effMask r mask?)).length
        = r.width * r.height := by
      rw [List.length_zip, hband, hmlen, min_self]
    have hidx := forall2_getD ((0 : ℚ), false) (0 : ℚ) hpair i
      (by rw [hziplen]; exact hi)
    rw [zip_getD (0 : ℚ) false _ _ i (by rw [hband]; exact hi)
      (by rw [hmlen]; exact hi)] at hidx
    have hflat := flatten_getD (r.width * r.height) 0 parts b i hplen
      (by rw [hparts_len]; exact hb) hi
    rw [hflat]
    exact ⟨fun hv => hidx.1 hv, fun hv => hidx.2 hv⟩

/-- C1 witness: the round trip instantiated on a concrete 2x1 raster with a
partially invalid mask at tolerance 0. -/
theorem c1_witness :
    ∃ out, decode exBlob = .ok out ∧
      out.length = exRaster.bands.length * (exRaster.width * exRaster.height) ∧
      ∀ b, b < exRaster.bands.length →
        ∀ i, i < exRaster.width * exRaster.height →
        ((effMask exRaster exMaskOpt).getD i false = true →
          |out.getD (b * (exRaster.width * exRaster.height) + i) 0
            - (exRaster.bands.getD b []).getD i 0| ≤ 0) ∧
        ((effMask exRaster exMaskOpt).getD i false = false →
          out.getD (b * (exRaster.width * exRaster.height) + i) 0 = -9999) :=
  c1_encode_decode_roundtrip exRaster exMaskOpt (-9999) 0 exBlob
    (by intro b hb; simp [exRaster] at hb; subst hb; rfl)
    (by intro m hm; simp [exMaskOpt] at hm; subst hm; rfl)
    le_rfl (by decide)

/-- C5: for every input blob, `decode` and `getInfo` either fail with only an
error value or return a fully valid result — a successful decode always
carries a complete raster of `width * height * bandCount` samples, never a
partial one. -/
theorem c5_no_partial_output (blob : List Nat) :
    ((∃ e, decode blob = .error e) ∨
      (∃ hdr r1 out, parseHeader blob = .ok (hdr, r1) ∧ decode blob = .ok out ∧
        out.length = hdr.width * hdr.height * hdr.bandCount)) ∧
    ((∃ e, getInfo blob = .error e) ∨ (∃ info, getInfo blob = .ok info)) := by
  constructor
  · cases hd : decode blob with
    | error e => exact .inl ⟨e, rfl⟩
    | ok out =>
      right
      obtain ⟨hdr, r1, hp, hlen⟩ := decode_ok_shape blob out hd
      exact ⟨hdr, r1, out, hp, rfl, hlen⟩
  · cases hg : getInfo blob with
    | error e => exact .inl ⟨e, rfl⟩
    | ok info => exact .inr ⟨info, rfl⟩

/-- C6: every successfully decoded blob yields a flat buffer holding exactly
`width * height * bandCount` samples, the dimensions being those of its
header. -/
theorem c6_decode_buffer_size (blob : List Nat) (out : List ℚ)
    (hdr : BlobHeader) (r1 : List Nat) (hdec : decode blob = .ok out)
    (hp : parseHeader blob = .ok (hdr, r1)) :
    out.length = hdr.width * hdr.height * hdr.bandCount := by
  obtain ⟨hdr2, r2, hp2, hlen⟩ := decode_ok_shape blob out hdec
  rw [hp] at hp2
  simp only [Except.ok.injEq, Prod.mk.injEq] at hp2
  rw [hp2.1]
  exact hlen

/-- C6 witness: the size contract instantiated on the concrete witness
blob. -/
theorem c6_witness :
    exDecoded.length = exParsed.1.width * exParsed.1.height * exParsed.1.bandCount :=
  c6_decode_buffer_size exBlob exDecoded exParsed.1 exParsed.2
    (by decide) (by decide)

/-- A reflexive-shaped `Forall₂` gives pointwise facts on members. -/
theorem forall2_self_mem {α : Type} {S : α → α → Prop} :
    ∀ {l : List α}, List.Forall₂ S l l → ∀ x ∈ l, S x x := by
  intro l
  induction l with
  | nil => intro _ x hx; simp at hx
  | cons a l ih =>
    intro h x hx
    cases h with
    | cons hab htail =>
      rcases List.mem_cons.mp hx with h1 | h1
      · subst h1; exact hab
      · exact ih htail x h1

/-- C2: for every non-empty value sequence and positive tolerance, `quantize`
computes `offset = min(values)`, `scale = max(2 * tolerance, epsilon)` and
rounded codes, and each reconstruction `offset + code * scale` is within
`scale / 2 ≤ tolerance` of the original; at tolerance 0 with non-integral
inputs it fails with `LossyRequiredError`. -/
theorem c2_quantize_contract (v : ℚ) (vs : List ℚ) (t : ℚ) :
    (0 < t →
      quantize (v :: vs) t
        = .ok ((v :: vs).map
            (fun x => round ((x - listMin v vs) / max (2 * t) epsilon)),
          max (2 * t) epsilon, listMin v vs) ∧
      (listMin v vs ∈ v :: vs ∧ ∀ x ∈ v :: vs, listMin v vs ≤ x) ∧
      max (2 * t) epsilon / 2 ≤ t ∧
      ∀ x ∈ v :: vs,
        |x - (listMin v vs
          + (round ((x - listMin v vs) / max (2 * t) epsilon) : ℚ)
            * max (2 * t) epsilon)|
          ≤ max (2 * t) epsilon / 2) ∧
    (t = 0 → ¬ (∀ x ∈ v :: vs, x.den = 1) →
      quantize (v :: vs) t = .error .lossyRequired) := by
  constructor
  · intro htpos
    have hne : t ≠ 0 := ne_of_gt htpos
    have hsc : max (2 * t) epsilon = 2 * t := by
      rw [max_eq_left]
      simp only [epsilon]
      linarith
    have hq : quantize (v :: vs) t
        = .ok ((v :: vs).map
            (fun x => round ((x - listMin v vs) / max (2 * t) epsilon)),
          max (2 * t) epsilon, listMin v vs) := by
      simp only [quantize, if_neg hne]
    refine ⟨hq, ⟨listMin_mem vs v, fun x hx => listMin_le vs v x hx⟩, ?_, ?_⟩
    · rw [hsc]; linarith
    · obtain ⟨hspos, _, hfa⟩ := quantize_ok_bound v vs t _ _ _
        (le_of_lt htpos) hq
      rw [List.forall₂_map_right_iff] at hfa
      have hmem := forall2_self_mem hfa
      intro x hx
      have hb := (hmem x hx).2
      have h22 : max (2 * t) epsilon / 2 = t := by rw [hsc]; ring
      rw [h22]
      exact hb
  · intro ht0 hnint
    subst ht0
    rw [quantize, if_pos rfl, if_neg ?_]
    intro hall
    exact hnint (fun x hx => by simpa using List.all_eq_true.mp hall x hx)

/-- C2 witness: the quantizer contract applied at tolerance 1 on a concrete
pair of values, and the lossy failure at tolerance 0 on a non-integral
value. -/
theorem c2_witness :
    quantize ((3 : ℚ) :: [(7 : ℚ) / 2]) 1
      = .ok (((3 : ℚ) :: [(7 : ℚ) / 2]).map
          (fun x => round ((x - listMin 3 [(7 : ℚ) / 2]) / max (2 * 1) epsilon)),
        max (2 * 1) epsilon, listMin 3 [(7 : ℚ) / 2]) ∧
    quantize [mkRat 1 2] 0 = .error .lossyRequired :=
  ⟨((c2_quantize_contract 3 [(7 : ℚ) / 2] 1).1 (by decide)).1,
   (c2_quantize_contract (mkRat 1 2) [] 0).2 rfl (by decide)⟩

/-- C3: the mask codec round-trips every boolean matrix exactly, and decoding
fails with `CorruptMaskError` exactly when the decoded run lengths do not sum
to `width * height`. -/
theorem c3_mask_roundtrip (m : List Bool) (w h : Nat) (hlen : m.length = w * h) :
    maskDecode (maskEncode m) w h = .ok m ∧
    (∀ bytes : List Nat, maskDecode bytes w h = .error .corruptMask ↔
      ∃ rs, varintDecodeList bytes.length bytes = some rs ∧ rs.sum ≠ w * h) := by
  constructor
  · have hparse : varintDecodeList (maskEncode m).length (maskEncode m)
        = some (maskRuns m) := by
      rw [show maskEncode m = (maskRuns m).flatMap varintEncode from rfl]
      exact varintDecodeList_encode (maskRuns m) _
        (flatMap_varintEncode_length (maskRuns m))
    rw [maskDecode, hparse]
    simp only
    have hsum : (maskRuns m).sum = w * h := by
      rw [maskRuns, runsAux_sum]
      simpa using hlen
    rw [if_pos hsum]
    have hexp : expandRuns true (maskRuns m) = m := by
      rw [maskRuns, expandRuns_runsAux]
      simp
    rw [hexp]
  · intro bytes
    constructor
    · intro herr
      rw [maskDecode] at herr
      cases hv : varintDecodeList bytes.length bytes with
      | none => rw [hv] at herr; simp at herr
      | some rs =>
        rw [hv] at herr
        simp only at herr
        by_cases hs : rs.sum = w * h
        · rw [if_pos hs] at herr; simp at herr
        · exact ⟨rs, rfl, hs⟩
    · rintro ⟨rs, hrs, hsum⟩
      rw [maskDecode, hrs]
      simp only
      rw [if_neg hsum]

/-- C3 witness: the mask round trip and the corruption criterion at a
concrete 3x1 mask. -/
theorem c3_witness :
    maskDecode (maskEncode [true, false, true]) 3 1 = .ok [true, false, true] ∧
    (∀ bytes : List Nat, maskDecode bytes 3 1 = .error .corruptMask ↔
      ∃ rs, varintDecodeList bytes.length bytes = some rs ∧ rs.sum ≠ 3 * 1) :=
  c3_mask_roundtrip [true, false, true] 3 1 (by decide)

/-- C4 is false as stated: encoding a raster with zero width and height
succeeds, but `getInfo` on the produced blob fails with
`MalformedHeaderError` (per the spec it rejects zero dimensions) instead of
reporting the dimensions and valid-pixel count. -/
theorem c4_counterexample :
    encode zeroRaster none 0 0 = .ok zeroBlob ∧
    getInfo zeroBlob = .error .malformedHeader := by
  exact ⟨by decide, by decide⟩

/-- C4 (amended): for every raster with positive width and height, every mask
and tolerance, `getInfo` after `encode` reports width, height and band count
equal to the raster dimensions, and a valid-pixel count equal to the number
of set mask bits (or `width * height` when the mask is absent). -/
theorem c4_getinfo_reports (r : Raster) (mask? : Option (List Bool)) (nd t : ℚ)
    (blob : List Nat) (hw : 0 < r.width) (hh : 0 < r.height)
    (henc : encode r mask? nd t = .ok blob) :
    ∃ info, getInfo blob = .ok info ∧ info.width = r.width ∧
      info.height = r.height ∧ info.bandCount = r.bands.length ∧
      (∀ m ∈ mask?, info.validPixelCount = countTrue m) ∧
      (mask? = none → info.validPixelCount = r.width * r.height) := by
  obtain ⟨info, hinfo, h1, h2, h3, h4, _⟩ :=
    getInfo_encode r mask? nd t blob hw hh henc
  refine ⟨info, hinfo, h1, h2, h3, ?_, ?_⟩
  · intro m hmem
    rw [h4]
    rw [Option.mem_def] at hmem
    subst hmem
    simp [effMask]
  · intro hnone
    subst hnone
    rw [h4]
    simp [effMask, countTrue_replicate_true]

/-- C4 witness: the amended metadata contract at the concrete witness
raster. -/
theorem c4_witness :
    ∃ info, getInfo exBlob = .ok info ∧ info.width = exRaster.width ∧
      info.height = exRaster.height ∧ info.bandCount = exRaster.bands.length ∧
      (∀ m ∈ exMaskOpt, info.validPixelCount = countTrue m) ∧
      (exMaskOpt = none →
        info.validPixelCount = exRaster.width * exRaster.height) :=
  c4_getinfo_reports exRaster exMaskOpt (-9999) 0 exBlob
    (by decide) (by decide) (by decide)

/-- C9: a tile whose mask bits are all false encodes to exactly the one-byte
empty-tile marker, the decoder consumes only that byte, and scattering the
empty valid-value list reconstructs every pixel of the tile as the noData
value. -/
theorem c9_empty_tile (t nd : ℚ) (vals : List ℚ) (mask : List Bool)
    (hall : ∀ b ∈ mask, b = false) :
    tileEncode t vals mask = .ok [tileMarkerEmpty] ∧
    (∀ rest, tileDecode (countTrue mask) (tileMarkerEmpty :: rest)
      = .ok ([], rest)) ∧
    scatterValid nd mask [] = List.replicate mask.length nd := by
  refine ⟨?_, ?_, scatterValid_allFalse mask [] nd hall⟩
  · rw [tileEncode, gatherValid_allFalse mask vals hall]
  · intro rest
    simp [tileDecode, tileMarkerEmpty]

/-- C9 witness: the empty-tile contract at a concrete all-invalid 2-pixel
tile. -/
theorem c9_witness :
    tileEncode 0 [1, 2] [false, false] = .ok [tileMarkerEmpty] ∧
    (∀ rest, tileDecode (countTrue [false, false]) (tileMarkerEmpty :: rest)
      = .ok ([], rest)) ∧
    scatterValid (-9999) [false, false] []
      = List.replicate ([false, false] : List Bool).length (-9999) :=
  c9_empty_tile 0 (-9999) [1, 2] [false, false] (by decide)

/-- C7: the wrapper layer reports a fixed noData value regardless of blob
contents — `lerc_wrapper_get_info` of the example variant always returns
`-9999`, and `Lerc_getInfo` of the iOS package variant always writes `0`,
whenever they succeed. -/
theorem c7_fixed_nodata :
    (∀ (g : GetBlobInfoOracle) (buffer : List Nat) (info : WLercInfo),
      exWrapperGetInfo g buffer = some info → info.noDataValue = -9999) ∧
    (∀ (g : GetLercInfoOracle) (blob : List Nat) (res : IosGetInfoResult),
      iosLercGetInfo g blob = some res → res.noDataValue = 0) := by
  constructor
  · intro g buffer info h
    rw [exWrapperGetInfo] at h
    cases hg : g buffer with
    | none => rw [hg] at h; simp at h
    | some x =>
      obtain ⟨ia, dr⟩ := x
      rw [hg] at h
      simp only [Option.some.injEq] at h
      rw [← h]
  · intro g blob res h
    rw [iosLercGetInfo] at h
    cases hg : g blob with
    | none => rw [hg] at h; simp at h
    | some x =>
      obtain ⟨c, r, b, vp, dt, zmin, zmax⟩ := x
      rw [hg] at h
      simp only [Option.some.injEq] at h
      rw [← h]

/-- C7 witness: both wrapper variants instantiated on concrete oracles. -/
theorem c7_witness :
    exWInfo.noDataValue = -9999 ∧ iosInfoRes.noDataValue = 0 :=
  ⟨c7_fixed_nodata.1 exInfoOracle [] exWInfo rfl,
   c7_fixed_nodata.2 iosInfoOracle [] iosInfoRes rfl⟩

/-- C8 is false as stated: the iOS wrapper variant keeps a process-wide
`initialized` flag, and with the flag unset `lerc_wrapper_decode` returns
null even though the same call succeeds after initialization. -/
theorem c8_counterexample :
    iosWrapperDecode exDecOracle false [] (some exWInfo2) = none ∧
    iosWrapperDecode exDecOracle true [] (some exWInfo2) = some [1, 2] ∧
    iosWrapperDecode exDecOracle false [] (some exWInfo2)
      ≠ iosWrapperDecode exDecOracle true [] (some exWInfo2) := by
  refine ⟨by decide, by decide, by decide⟩

/-- C8 (amended): in the example variant, `lerc_wrapper_initialize` is a pure
no-op returning true and no wrapper call reads process state; in the iOS
variant, `lerc_wrapper_get_info` is unaffected by the flag (it
self-initializes), but `lerc_wrapper_decode` returns null whenever the
`initialized` flag is unset and behaves identically after any
initialization. -/
theorem c8_wrapper_state :
    exWrapperInit = true ∧
    (∀ s : Bool, iosWrapperInit s = (true, true)) ∧
    (∀ (g : GetLercInfoOracle) (s1 s2 : Bool) (buffer : List Nat),
      (iosWrapperGetInfo g s1 buffer).1 = (iosWrapperGetInfo g s2 buffer).1) ∧
    (∀ (dec : LercDecodeOracle) (buffer : List Nat) (info : Option WLercInfo),
      iosWrapperDecode dec false buffer info = none) ∧
    (∀ (dec : LercDecodeOracle) (buffer : List Nat) (info : Option WLercInfo),
      iosWrapperDecode dec (iosWrapperInit false).2 buffer info
        = iosWrapperDecode dec true buffer info) := by
  exact ⟨rfl, fun _ => rfl, fun _ _ _ _ => rfl, fun _ _ _ => rfl, fun _ _ _ => rfl⟩

/-- C10 is false as stated for the iOS variant of `lerc_wrapper_decode`: with
the `initialized` flag unset, it returns null without attempting either
decode even when the float decode would succeed. -/
theorem c10_counterexample :
    exDecOracle2 [] 1 1 1 6 = some [3] ∧
    iosWrapperDecode exDecOracle2 false [] (some exWInfo3) = none :=
  ⟨rfl, rfl⟩

/-- C10 (amended): `lerc_wrapper_decode` first attempts a float (type 6)
decode; on success it returns the widened doubles; only on failure does it
attempt a double (type 7) decode, and it returns null exactly when both fail
— unconditionally in the example variant, and in the iOS variant provided
the wrapper is initialized (when uninitialized, the iOS variant returns null
without attempting either decode). -/
theorem c10_decode_order (dec : LercDecodeOracle) (buffer : List Nat)
    (i : WLercInfo) :
    ((∀ floatData, dec buffer i.width i.height 1 6 = some floatData →
        exWrapperDecode dec buffer (some i)
          = some (floatData.map floatToDouble)) ∧
      (dec buffer i.width i.height 1 6 = none →
        exWrapperDecode dec buffer (some i)
          = dec buffer i.width i.height 1 7) ∧
      (exWrapperDecode dec buffer (some i) = none ↔
        dec buffer i.width i.height 1 6 = none ∧
        dec buffer i.width i.height 1 7 = none)) ∧
    ((∀ floatData, dec buffer i.width i.height i.numBands 6 = some floatData →
        iosWrapperDecode dec true buffer (some i)
          = some (floatData.map floatToDouble)) ∧
      (dec buffer i.width i.height i.numBands 6 = none →
        iosWrapperDecode dec true buffer (some i)
          = dec buffer i.width i.height i.numBands 7) ∧
      iosWrapperDecode dec false buffer (some i) = none) := by
  refine ⟨⟨?_, ?_, ?_⟩, ⟨?_, ?_, rfl⟩⟩
  · intro floatData hf
    rw [exWrapperDecode, hf]
  · intro hf
    rw [exWrapperDecode, hf]
    cases hd : dec buffer i.width i.height 1 7 <;> simp
  · rw [exWrapperDecode]
    cases hf : dec buffer i.width i.height 1 6 with
    | none =>
      cases hd : dec buffer i.width i.height 1 7 <;> simp
    | some floatData => simp
  · intro floatData hf
    rw [iosWrapperDecode]
    simp only [Bool.true_eq_false, if_false]
    rw [hf]
  · intro hf
    rw [iosWrapperDecode]
    simp only [Bool.true_eq_false, if_false]
    rw [hf]
    cases hd : dec buffer i.width i.height i.numBands 7 <;> simp

/-- C10 witness: the float-first order on a concrete oracle whose float
decode succeeds, and the iOS uninitialized null return. -/
theorem c10_witness :
    exWrapperDecode exDecOracle2 [] (some exWInfo3)
      = some (([3] : List ℚ).map floatToDouble) ∧
    iosWrapperDecode exDecOracle2 false [] (some exWInfo3) = none :=
  ⟨(c10_decode_order exDecOracle2 [] exWInfo3).1.1 [3] rfl,
   (c10_decode_order exDecOracle2 [] exWInfo3).2.2.2⟩

end LercModel
